import Mathlib

/-!
Verification of the mood-journal inline-tag normalizer and plain-text
journal codec (`cleanupTags`, `exportData`, `importData` and their helpers).

Strings are modelled as lists of Unicode scalar characters (`Str`).  The
JavaScript host builtins the code relies on (`String.prototype.trim`,
`split`, `Array.prototype.sort`, `Date`) are modelled explicitly next to
the functions that use them; each model carries a comment saying which
host behaviour it captures.
-/

namespace MoodJournal

abbrev Str := List Char

/-- Whitespace test used by the models of `trim`, the regexp class `\s`
and line trimming.  The ASCII whitespace characters are the only ones the
codec ever produces or tests in practice. -/
def isWs (c : Char) : Bool :=
  c == ' ' || c == '\t' || c == '\n' || c == '\r' || c == '\x0b' || c == '\x0c'

/-- Model of `String.prototype.trim`: drop whitespace from both ends. -/
def jsTrim (s : Str) : Str :=
  ((s.dropWhile isWs).reverse.dropWhile isWs).reverse

/-- Helper for the model of `String.prototype.split`: first chunk and
remaining chunks of the input, split at the separator. -/
def splitAux (sep : Char) : Str → Str × List Str
  | [] => ([], [])
  | c :: rest =>
      let r := splitAux sep rest
      if c = sep then ([], r.1 :: r.2) else (c :: r.1, r.2)

/-- Model of `String.prototype.split` with a one-character separator:
the list of separator-free chunks; splitting the empty string gives
`[[]]`, a trailing separator a trailing `[]`, exactly as in JavaScript. -/
def splitOnChar (sep : Char) (s : Str) : List Str :=
  (splitAux sep s).1 :: (splitAux sep s).2

/-- Model of `Array.prototype.join`: concatenate with a separator
between consecutive elements. -/
def joinWith (sep : Str) : List Str → Str
  | [] => []
  | [x] => x
  | x :: y :: rest => x ++ sep ++ joinWith sep (y :: rest)

/-! ## The tag normalizer `cleanupTags` (utils.ts lines 84-146)

The loop scans the string, recognising `<b>`, `<i>`, `<u>` and the three
closing forms via the regexp `^<(\/?)([biu])>`; any other character is
ordinary text.  We split the loop into a tokenizer (`ctTokenize`) and the
state-machine body (`runToks`); the match in the source does not depend on
the mutable state, so this is the same computation. -/

inductive CTok where
  | chr (c : Char)
  | opn (t : Char)
  | cls (t : Char)
deriving DecidableEq, Repr

def isStyle (c : Char) : Bool := c == 'b' || c == 'i' || c == 'u'

/-- Tokenizer for `cleanupTags`: at each position try the regexp
`^<(\/?)([biu])>`; on failure the single character is text and scanning
resumes at the next position. -/
def ctTokenize : Str → List CTok
  | [] => []
  | '<' :: '/' :: t :: '>' :: rest =>
      if isStyle t then CTok.cls t :: ctTokenize rest
      else CTok.chr '<' :: ctTokenize ('/' :: t :: '>' :: rest)
  | '<' :: t :: '>' :: rest =>
      if isStyle t then CTok.opn t :: ctTokenize rest
      else CTok.chr '<' :: ctTokenize (t :: '>' :: rest)
  | c :: rest => CTok.chr c :: ctTokenize rest

/-- One text segment together with the set of styles active over it.
`tags` models a JavaScript `Set` built from the tag stack: a duplicate-free
list in first-insertion order. -/
structure Segment where
  text : Str
  tags : List Char
deriving DecidableEq, Repr

/-- `new Set(l)` for a list: keep the first occurrence of each element,
in order. -/
def jsSetAux : List Char → List Char → List Char
  | _, [] => []
  | seen, c :: rest =>
      if seen.contains c then jsSetAux seen rest
      else c :: jsSetAux (c :: seen) rest

def jsSet (l : List Char) : List Char := jsSetAux [] l

/-- The close-tag step of `cleanupTags` (lines 102-106):
`tagStack.indexOf(tag)` followed by `splice(index, 1)` when the index is
not `-1`.  `List.indexOf` returns the length when the element is absent,
which plays the role of `-1`. -/
def closeTag (stack : List Char) (t : Char) : List Char :=
  let idx := List.indexOf t stack
  if idx < stack.length then stack.eraseIdx idx else stack

/-- The scanning loop of `cleanupTags`: builds the segment list.  `stack`
is `tagStack`, `cur` is `currentText`; a nonempty `cur` is flushed (with
`new Set(tagStack)`) at every tag token and at the end of input. -/
def runToks : List CTok → List Char → Str → List Segment
  | [], stack, cur => if cur = [] then [] else [⟨cur, jsSet stack⟩]
  | CTok.chr c :: rest, stack, cur => runToks rest stack (cur ++ [c])
  | CTok.opn t :: rest, stack, cur =>
      if cur = [] then runToks rest (stack ++ [t]) []
      else ⟨cur, jsSet stack⟩ :: runToks rest (stack ++ [t]) []
  | CTok.cls t :: rest, stack, cur =>
      if cur = [] then runToks rest (closeTag stack t) []
      else ⟨cur, jsSet stack⟩ :: runToks rest (closeTag stack t) []

def openTagStr (t : Char) : Str := ['<', t, '>']

def closeTagStr (t : Char) : Str := ['<', '/', t, '>']

/-- The emission loop of `cleanupTags` (lines 122-143): between segments
close the styles that become inactive and open the ones that become
active, iterating the recorded sets in their insertion order; after the
last segment close everything still active. -/
def emitSegs : List Char → List Segment → Str
  | active, [] => (active.map closeTagStr).flatten
  | active, seg :: rest =>
      ((active.filter (fun t => !(seg.tags.contains t))).map closeTagStr).flatten
        ++ ((seg.tags.filter (fun t => !(active.contains t))).map openTagStr).flatten
        ++ seg.text
        ++ emitSegs seg.tags rest

/-- `cleanupTags` (utils.ts lines 84-146). -/
def cleanupTags (s : Str) : Str := emitSegs [] (runToks (ctTokenize s) [] [])

/-- `cleanupTags` on Lean strings, for readable statements. -/
def cleanupTagsS (s : String) : String := ⟨cleanupTags s.data⟩


/-! ## Data model (types.ts) -/

inductive MoodColor where
  | grey | red | orange | yellow | green | blue | purple
deriving DecidableEq, Repr

structure MoodEntry where
  date : Str
  mood : MoodColor
  diary : Str
deriving DecidableEq, Repr

/-- `MOOD_EMOJIS` (types.ts). -/
def MOOD_EMOJIS : MoodColor → Char
  | MoodColor.grey => '⚪'
  | MoodColor.red => '🔴'
  | MoodColor.orange => '🟠'
  | MoodColor.yellow => '🟡'
  | MoodColor.green => '🟢'
  | MoodColor.blue => '🔵'
  | MoodColor.purple => '🟣'

/-- `MONTH_NAMES` (types.ts). -/
def MONTH_NAMES : List Str :=
  ["January".data, "February".data, "March".data, "April".data,
   "May".data, "June".data, "July".data, "August".data,
   "September".data, "October".data, "November".data, "December".data]

/-- ASCII uppercasing of one character; models the fragment of
`String.prototype.toUpperCase` exercised by the month/weekday names. -/
def upChar (c : Char) : Char :=
  if 'a' ≤ c ∧ c ≤ 'z' then Char.ofNat (c.toNat - 32) else c

def upStr (s : Str) : Str := s.map upChar

/-! ## Dates

The code builds dates with `new Date(year, monthIndex, day)` and reads
back `getFullYear`, `getMonth`, `getDate`, `getDay` and `getTime`.  We
model a JavaScript `Date` at day granularity by its civil components
after the Date constructor's normalization (month carried into the year
with floored division, then out-of-range days carried month by month),
which is ECMA-262 `MakeDay` semantics. -/

structure CDate where
  year : Int
  month : Nat
  day : Nat
deriving DecidableEq, Repr

def isLeap (y : Int) : Bool := (y % 4 == 0 && y % 100 != 0) || y % 400 == 0

/-- Days in month `m` (0-based) of year `y`. -/
def daysInMonthYM (y : Int) (m : Nat) : Nat :=
  if m = 1 then (if isLeap y then 29 else 28)
  else if m = 3 ∨ m = 5 ∨ m = 8 ∨ m = 10 then 30 else 31

/-- Day-of-month normalization: carry an out-of-range day count into the
following months (`fuel` only bounds the recursion; any `fuel ≥ d` and
`fuel ≥ 1` suffices since each step removes at least 28 days). A day
number `0` borrows the last day of the preceding month, as
`new Date(y, m, 0)` does. -/
def dayCarryAux : Nat → Int → Nat → Nat → CDate
  | 0, y, m, d => ⟨y, m, d⟩
  | fuel + 1, y, m, d =>
      if d = 0 then
        (if m = 0 then ⟨y - 1, 11, 31⟩ else ⟨y, m - 1, daysInMonthYM y (m - 1)⟩)
      else if d ≤ daysInMonthYM y m then ⟨y, m, d⟩
      else if m = 11 then dayCarryAux fuel (y + 1) 0 (d - 31)
      else dayCarryAux fuel y (m + 1) (d - daysInMonthYM y m)

/-- `new Date(y, m, d)` at day granularity (for the day arguments `d ≥ 0`
produced by the parsers): normalize the month, then the day.  Fuel
`d + 1` keeps the borrow case for `d = 0` reachable. -/
def mkJsDate (y : Int) (m : Int) (d : Nat) : CDate :=
  dayCarryAux (d + 1) (y + m.fdiv 12) (m.emod 12).toNat d

/-- Host model: a `Date` time value is `NaN` (so `isNaN(getTime())` holds)
only when the date lies beyond ±100,000,000 days from the epoch.  We model
the check at year granularity; the boundary years are far outside anything
the importer's 4-digit-year format can produce, so the approximation is
never exercised. -/
def jsDateInRange (dt : CDate) : Bool :=
  -270000 ≤ dt.year && dt.year ≤ 270000

def digitCh (d : Nat) : Char := Char.ofNat (48 + d)

/-- Decimal digits of `n`, most significant first (`fuel ≥ n` suffices). -/
def natToCharsAux : Nat → Nat → Str
  | 0, _ => []
  | fuel + 1, n =>
      if n = 0 then [] else natToCharsAux fuel (n / 10) ++ [digitCh (n % 10)]

/-- The decimal string of a natural number, as produced by JavaScript
number-to-string conversion on integers. -/
def natToChars (n : Nat) : Str := if n = 0 then ['0'] else natToCharsAux n n

def intToChars (i : Int) : Str :=
  if i < 0 then '-' :: natToChars (-i).toNat else natToChars i.toNat

/-- `String(x).padStart(2, '0')`. -/
def pad2 (s : Str) : Str :=
  if s.length ≥ 2 then s else List.replicate (2 - s.length) '0' ++ s

/-- `formatDate` (utils.ts lines 147-152): `YYYY-MM-DD` with 2-digit
padding of month and day. -/
def formatDate (dt : CDate) : Str :=
  intToChars dt.year ++ ['-'] ++ pad2 (natToChars (dt.month + 1)) ++ ['-']
    ++ pad2 (natToChars dt.day)

def isDigitCh (c : Char) : Bool := '0' ≤ c && c ≤ '9'

/-- `parseInt` on the all-digit strings captured by the regexps. -/
def parseIntNat (s : Str) : Nat :=
  s.foldl (fun a c => a * 10 + (c.toNat - 48)) 0

/-- The fragment of JavaScript `Number()` reachable from `parseDate`:
the empty string is `0`, an all-digit string is its value, anything else
is `NaN` (modelled as `none`). -/
def jsNumber? (s : Str) : Option Nat :=
  if s = [] then some 0
  else if s.all isDigitCh then some (parseIntNat s) else none

/-- The body of `parseDate` after destructuring: `new Date(y, m-1, d)`
from the `Number` conversions of the three pieces; `none` stands for an
invalid date (some component `NaN`). -/
def parseDateOfPieces (yP mP dP : Str) : Option CDate :=
  match jsNumber? yP, jsNumber? mP, jsNumber? dP with
  | some yv, some mv, some dv => some (mkJsDate yv ((mv : Int) - 1) dv)
  | _, _, _ => none

/-- `parseDate` (utils.ts lines 154-157): split on `-`, convert the first
three pieces with `Number`, build `new Date(y, m-1, d)`.  `none` stands
for an invalid date (some component `NaN` or missing). -/
def parseDate? (s : Str) : Option CDate :=
  match splitOnChar '-' s with
  | y :: m :: d :: _ => parseDateOfPieces y m d
  | _ => none

/-- `parseDate` with a junk default.  The only consumer is the sort
comparator; a `NaN` comparator makes the JavaScript sort order
unspecified, and every theorem below restricts to parseable dates. -/
def parseDateD (s : Str) : CDate := (parseDate? s).getD ⟨0, 0, 1⟩

/-- Chronological order on normalized civil dates: `getTime` comparisons
order dates lexicographically by (year, month, day). -/
def dateLeB (a b : CDate) : Bool :=
  a.year < b.year || (a.year = b.year &&
    (a.month < b.month || (a.month = b.month && a.day ≤ b.day)))

/-! ## Entry utilities (utils.ts lines 201-247) -/

/-- The validity test of `getValidEntries`: `mood !== 'grey' ||
entry.diary.trim()` (nonempty after trimming). -/
def entryValid (e : MoodEntry) : Bool :=
  e.mood ≠ MoodColor.grey || jsTrim e.diary ≠ []

/-- `getValidEntries` (utils.ts lines 202-203). -/
def getValidEntries (entries : List MoodEntry) : List MoodEntry :=
  entries.filter entryValid

/-- Stable insertion of `a` into `l`: `a` goes after every element not
strictly greater than it. -/
def insertByLe (le : MoodEntry → MoodEntry → Bool) (a : MoodEntry) :
    List MoodEntry → List MoodEntry
  | [] => [a]
  | b :: l => if le b a then b :: insertByLe le a l else a :: b :: l

/-- Stable sort by a boolean total preorder.  ECMA-262 requires
`Array.prototype.sort` to be stable and consistent with the comparator;
insertion sort realizes exactly that specification. -/
def stableSortByLe (le : MoodEntry → MoodEntry → Bool)
    (l : List MoodEntry) : List MoodEntry :=
  l.foldl (fun acc a => insertByLe le a acc) []

/-- `sortEntriesByDate` (utils.ts lines 205-211): sort by the time value
of the parsed date, ascending or descending. -/
def sortEntriesByDate (entries : List MoodEntry) (ascending : Bool) :
    List MoodEntry :=
  stableSortByLe
    (fun a b =>
      if ascending then dateLeB (parseDateD a.date) (parseDateD b.date)
      else dateLeB (parseDateD b.date) (parseDateD a.date))
    entries

/-! ## Display dates (utils.ts lines 193-199)

`formatDisplayDate` uses `toLocaleDateString` for the long month and
weekday names.  We model the host locale as English: the long month names
then coincide with `MONTH_NAMES`, and the weekday comes from the civil
day-of-week (Zeller's congruence), which models `getDay`. -/

def WEEKDAY_LONG : List Str :=
  ["Sunday".data, "Monday".data, "Tuesday".data, "Wednesday".data,
   "Thursday".data, "Friday".data, "Saturday".data]

/-- Day of week of a civil date, 0 = Sunday, via Zeller's congruence;
models `Date.prototype.getDay`. -/
def dayOfWeek (dt : CDate) : Nat :=
  let mm : Int := dt.month + 1
  let yAdj : Int := if mm ≤ 2 then dt.year - 1 else dt.year
  let mAdj : Int := if mm ≤ 2 then mm + 12 else mm
  let k : Int := yAdj.emod 100
  let j : Int := yAdj.fdiv 100
  let h : Int :=
    ((dt.day : Int) + (13 * (mAdj + 1)).fdiv 5 + k + k.fdiv 4 + j.fdiv 4 + 5 * j).emod 7
  ((h + 6).emod 7).toNat

/-- Long month name under the modelled English locale. -/
def localeMonthLong (m : Nat) : Str := MONTH_NAMES.getD m []

/-- Long weekday name under the modelled English locale. -/
def localeWeekdayLong (dt : CDate) : Str := WEEKDAY_LONG.getD (dayOfWeek dt) []

/-- `formatDisplayDate` (utils.ts lines 193-199):
`MONTH day year, WEEKDAY` with the names uppercased. -/
def formatDisplayDate (dt : CDate) : Str :=
  upStr (localeMonthLong dt.month) ++ [' '] ++ natToChars dt.day ++ [' ']
    ++ intToChars dt.year ++ [','] ++ [' '] ++ upStr (localeWeekdayLong dt)

/-! ## Export (utils.ts lines 231-247) -/

def exportBlock (e : MoodEntry) : Str :=
  MOOD_EMOJIS e.mood :: ' ' :: formatDisplayDate (parseDateD e.date)
    ++ ['\n'] ++ cleanupTags e.diary

def NO_ENTRIES_MSG : Str := "No entries to export.".data

/-- `exportData` (utils.ts lines 231-247): keep valid entries, sort
descending, emit one block per entry, join with a blank line. -/
def exportData (entries : List MoodEntry) : Str :=
  let validEntries := getValidEntries entries
  if validEntries = [] then NO_ENTRIES_MSG
  else
    joinWith ['\n', '\n']
      ((sortEntriesByDate validEntries false).map exportBlock)

/-! ## Import (utils.ts lines 249-344) -/

inductive ImportErr where
  | emptyFile
  | noValid
deriving DecidableEq, Repr

def moodEmojiChars : List Char := ['🔴', '🟠', '🟡', '🟢', '🔵', '🟣', '⚪']

/-- `emojiToMood` (utils.ts lines 259-267). -/
def emojiToMood? (c : Char) : Option MoodColor :=
  if c = '⚪' then some MoodColor.grey
  else if c = '🔴' then some MoodColor.red
  else if c = '🟠' then some MoodColor.orange
  else if c = '🟡' then some MoodColor.yellow
  else if c = '🟢' then some MoodColor.green
  else if c = '🔵' then some MoodColor.blue
  else if c = '🟣' then some MoodColor.purple
  else none

def isAsciiAlpha (c : Char) : Bool :=
  ('A' ≤ c && c ≤ 'Z') || ('a' ≤ c && c ≤ 'z')

/-- The header-line test (utils.ts line 271):
`^([🔴🟠🟡🟢🔵🟣⚪])\s+([A-Z]+)\s+(\d+)\s+(\d{4}),\s+[A-Z]+$/iu` as a
predicate.  Greedy runs are exact here because the character classes are
pairwise disjoint; `(\d{4})` must be followed by `,`, so a longer digit
run fails just as in the regexp. -/
def isNewEntry (s : Str) : Bool :=
  match s with
  | [] => false
  | e :: r0 =>
      moodEmojiChars.contains e &&
      (r0.takeWhile isWs ≠ ([] : Str)) &&
      (let r1 := r0.dropWhile isWs
       (r1.takeWhile isAsciiAlpha ≠ ([] : Str)) &&
       (let r2 := r1.dropWhile isAsciiAlpha
        (r2.takeWhile isWs ≠ ([] : Str)) &&
        (let r3 := r2.dropWhile isWs
         (r3.takeWhile isDigitCh ≠ ([] : Str)) &&
         (let r4 := r3.dropWhile isDigitCh
          (r4.takeWhile isWs ≠ ([] : Str)) &&
          (let r5 := r4.dropWhile isWs
           ((r5.takeWhile isDigitCh).length = 4 : Bool) &&
           (match r5.dropWhile isDigitCh with
            | ',' :: r6 =>
                (r6.takeWhile isWs ≠ ([] : Str)) &&
                (let r7 := r6.dropWhile isWs
                 r7 ≠ ([] : Str) && r7.all isAsciiAlpha)
            | _ => false))))))

/-- One step of the line-grouping loop (utils.ts lines 269-282).  State:
accumulated `blocks` and the growing `currentBlock`. -/
def groupStep (st : List Str × Str) (line : Str) : List Str × Str :=
  let blocks := st.1
  let currentBlock := st.2
  let trimmedLine := jsTrim line
  if isNewEntry trimmedLine ∧ jsTrim currentBlock ≠ [] then
    (blocks ++ [jsTrim currentBlock], trimmedLine)
  else if isNewEntry trimmedLine then (blocks, trimmedLine)
  else if trimmedLine ≠ [] ∨ currentBlock ≠ [] then
    (blocks, currentBlock ++ (if currentBlock ≠ [] then ['\n'] else []) ++ trimmedLine)
  else (blocks, currentBlock)

/-- The block list built by `importData` (lines 254-286): trim the
content, split into lines, group, flush the final block. -/
def importBlocks (content : Str) : List Str :=
  let lines := splitOnChar '\n' (jsTrim content)
  let st := lines.foldl groupStep ([], [])
  if jsTrim st.2 ≠ [] then st.1 ++ [jsTrim st.2] else st.1

/-- `getMonthIndex` (utils.ts lines 288-303): exact case-insensitive
match against `MONTH_NAMES` first, then against the locale's long month
names (modelled as the same English names, see above). -/
def getMonthIndex (monthName : Str) : Option Nat :=
  let upper := upStr monthName
  match MONTH_NAMES.findIdx? (fun nm => upStr nm = upper) with
  | some i => some i
  | none => (List.range 12).find? (fun i => upStr (localeMonthLong i) = upper)

/-- The characters the regexp metacharacter `.` matches (no `s` flag):
everything except the line terminators `\n`, `\r`, U+2028 and U+2029. -/
def jsDotCh (c : Char) : Bool :=
  c ≠ '\n' && c ≠ '\r' && c ≠ '\u2028' && c ≠ '\u2029'

/-- The match `^([🔴🟠🟡🟢🔵🟣⚪])\s+(.+)$/u` (utils.ts line 312): one
mood emoji, whitespace, then the date text.  The greedy `\s+` takes the
maximal whitespace run, and `(.+)$` then requires every remaining
character to be `.`-matchable: a later line terminator (such as an
interior `\r`) cannot be rescued by backtracking, since shortening
`\s+` only prepends whitespace to the capture, so the whole match
fails.  The degenerate backtracking case (a header whose tail is
entirely whitespace) is rejected here while the regexp could capture a
whitespace `dateText` — the date match then fails on it, so the block
is skipped either way. -/
def emojiMatch (line : Str) : Option (Char × Str) :=
  match line with
  | [] => none
  | e :: rest =>
      if moodEmojiChars.contains e then
        if rest.takeWhile isWs ≠ ([] : Str) ∧ rest.dropWhile isWs ≠ ([] : Str) ∧
            (rest.dropWhile isWs).all jsDotCh = true then
          some (e, rest.dropWhile isWs)
        else none
      else none

/-- The match `^([A-Z]+)\s+(\d+)\s+(\d{4}),\s+[A-Z]+$/i` (utils.ts line
319), capturing month name, day digits and year digits. -/
def dateMatch (s : Str) : Option (Str × Str × Str) :=
  let mn := s.takeWhile isAsciiAlpha
  let r1 := s.dropWhile isAsciiAlpha
  if mn = [] then none
  else if r1.takeWhile isWs = ([] : Str) then none
  else
    let r2 := r1.dropWhile isWs
    let d1 := r2.takeWhile isDigitCh
    let r3 := r2.dropWhile isDigitCh
    if d1 = [] then none
    else if r3.takeWhile isWs = ([] : Str) then none
    else
      let r4 := r3.dropWhile isWs
      let d2 := r4.takeWhile isDigitCh
      if d2.length ≠ 4 then none
      else
        match r4.dropWhile isDigitCh with
        | ',' :: r5 =>
            if r5.takeWhile isWs = ([] : Str) then none
            else
              let r6 := r5.dropWhile isWs
              if r6 ≠ ([] : Str) ∧ r6.all isAsciiAlpha then some (mn, d1, d2)
              else none
        | _ => none

/-- The per-block parse (utils.ts lines 305-337).  `none` means the block
is skipped (`continue`); each guard of the source's `continue` chain is a
monadic bind here. -/
def parseBlock (block : Str) : Option MoodEntry :=
  match splitOnChar '\n' block with
  | [] => none
  | firstLine :: restLines =>
      let diary :=
        if restLines ≠ [] then jsTrim (joinWith ['\n'] restLines) else []
      (emojiMatch firstLine).bind (fun em =>
        (emojiToMood? em.1).bind (fun mood =>
          (dateMatch em.2).bind (fun dm =>
            (getMonthIndex dm.1).bind (fun monthIndex =>
              let entryDate :=
                mkJsDate (parseIntNat dm.2.2) monthIndex (parseIntNat dm.2.1)
              if jsDateInRange entryDate then
                some ⟨formatDate entryDate, mood, diary⟩
              else none))))

/-- `importData` (utils.ts lines 249-344). -/
def importData (content : Str) : Except ImportErr (List MoodEntry) :=
  if jsTrim content = [] then Except.error ImportErr.emptyFile
  else
    let entries := (importBlocks content).filterMap parseBlock
    if entries = [] then Except.error ImportErr.noValid else Except.ok entries

def importDataS (content : String) : Except ImportErr (List MoodEntry) :=
  importData content.data

instance : DecidableEq (Except ImportErr (List MoodEntry)) := fun a b =>
  match a, b with
  | Except.ok x, Except.ok y =>
      if h : x = y then isTrue (by rw [h]) else isFalse (by simp [h])
  | Except.error x, Except.error y =>
      if h : x = y then isTrue (by rw [h]) else isFalse (by simp [h])
  | Except.ok _, Except.error _ => isFalse (by simp)
  | Except.error _, Except.ok _ => isFalse (by simp)


/-! # Claim C2: how a close marker updates the active-style stack -/

/-- Modelled from the claim's words, for comparison with `closeTag`:
remove the most recent (topmost) occurrence of the style, found by a
reverse linear search from the top of the stack. -/
def removeTopmostOcc (stack : List Char) (t : Char) : List Char :=
  (stack.reverse.erase t).reverse

/-- The close step of the scanning loop, with the topmost-removal
behaviour the claim describes substituted for the source's
`indexOf`/`splice` step; used only to compare the two behaviours. -/
def runToksTop : List CTok → List Char → Str → List Segment
  | [], stack, cur => if cur = [] then [] else [⟨cur, jsSet stack⟩]
  | CTok.chr c :: rest, stack, cur => runToksTop rest stack (cur ++ [c])
  | CTok.opn t :: rest, stack, cur =>
      if cur = [] then runToksTop rest (stack ++ [t]) []
      else ⟨cur, jsSet stack⟩ :: runToksTop rest (stack ++ [t]) []
  | CTok.cls t :: rest, stack, cur =>
      if cur = [] then runToksTop rest (removeTopmostOcc stack t) []
      else ⟨cur, jsSet stack⟩ :: runToksTop rest (removeTopmostOcc stack t) []

/-- The whole normalizer with the claimed topmost-removal close step. -/
def cleanupTagsTopVar (s : Str) : Str :=
  emitSegs [] (runToksTop (ctTokenize s) [] [])

theorem closeTag_eq_erase (stack : List Char) (t : Char) :
    closeTag stack t = stack.erase t := by
  have key : ∀ l : List Char,
      (if List.indexOf t l < l.length then l.eraseIdx (List.indexOf t l) else l) =
        l.erase t := by
    intro l
    induction l with
    | nil => rfl
    | cons c rest ih =>
        by_cases h : c = t
        · subst h
          simp [List.indexOf_cons, List.erase_cons]
        · have hbeq : (c == t) = false := by simp [h]
          have hrhs : (c :: rest).erase t = c :: rest.erase t := by
            simp [List.erase_cons, hbeq]
          rw [hrhs, List.indexOf_cons, hbeq]
          simp only [cond_false, List.length_cons]
          by_cases hlt : List.indexOf t rest < rest.length
          · rw [if_pos (by omega), List.eraseIdx_cons_succ, ← ih, if_pos hlt]
          · rw [if_neg (by omega), ← ih, if_neg hlt]
  simpa [closeTag] using key stack

/-- C2 counterexample.  In the state reached after `<b><i><b>`, the stack
is `[b, i, b]`; the source's close step removes the bottom occurrence
(`indexOf` scans from the bottom), not the topmost one, and on a whole
input string the two behaviours produce different normalizer output. -/
theorem c2_counterexample :
    closeTag ['b', 'i', 'b'] 'b' ≠ removeTopmostOcc ['b', 'i', 'b'] 'b' ∧
    cleanupTagsS "<b><i><b>x</b>y" ≠
      String.mk (cleanupTagsTopVar "<b><i><b>x</b>y".data) := by
  constructor
  · decide
  · decide

/-- C2 amended: on a close marker for style `S`, the normalizer removes
the first occurrence of `S` found scanning from the *bottom* of the stack
(a forward linear search, `Array.prototype.indexOf`); when `S` is open
more than once it is the oldest occurrence, not the most recent one, that
is removed.  It is still not a strict pop, and an absent style leaves the
stack unchanged. -/
theorem c2_close_removes_oldest :
    (∀ (stack : List Char) (t : Char), closeTag stack t = stack.erase t) ∧
    (∀ (pre post : List Char) (t : Char), t ∉ pre →
      closeTag (pre ++ t :: post) t = pre ++ post) ∧
    (∀ (stack : List Char) (t : Char), t ∉ stack → closeTag stack t = stack) := by
  refine ⟨closeTag_eq_erase, ?_, ?_⟩
  · intro pre post t h
    rw [closeTag_eq_erase, List.erase_append_right _ h, List.erase_cons_head]
  · intro stack t h
    rw [closeTag_eq_erase, List.erase_of_not_mem h]

theorem c2_witness :
    closeTag (['i'] ++ 'b' :: ['u']) 'b' = ['i'] ++ ['u'] ∧
    closeTag ['i', 'u'] 'b' = ['i', 'u'] :=
  ⟨c2_close_removes_oldest.2.1 ['i'] ['u'] 'b' (by decide),
   c2_close_removes_oldest.2.2 ['i', 'u'] 'b' (by decide)⟩

/-! # Claim C9: export of a list with no valid entries -/

/-- C9: with zero valid entries, `exportData` returns the fixed sentinel
string (and, being a total function, raises no error). -/
theorem c9_sentinel (E : List MoodEntry) (h : getValidEntries E = []) :
    exportData E = NO_ENTRIES_MSG := by
  simp [exportData, h]

theorem c9_witness :
    exportData [⟨"2024-01-01".data, MoodColor.grey, "  ".data⟩] = NO_ENTRIES_MSG :=
  c9_sentinel _ (by decide)

/-! # Claim C4: the two error conditions of `importData` -/

/-- C4: `importData` fails with the empty-file error exactly on
empty/whitespace-only input; it fails with the no-valid-entries error
exactly when the input is nonempty but no block parses to an entry; in
every other case it returns the parsed entry list. -/
theorem c4_error_iff (s : Str) :
    (importData s = Except.error ImportErr.emptyFile ↔ jsTrim s = []) ∧
    (importData s = Except.error ImportErr.noValid ↔
      jsTrim s ≠ [] ∧ (importBlocks s).filterMap parseBlock = []) ∧
    (∀ l, importData s = Except.ok l ↔
      jsTrim s ≠ [] ∧ (importBlocks s).filterMap parseBlock = l ∧ l ≠ []) := by
  by_cases h : jsTrim s = []
  · refine ⟨by simp [importData, h], by simp [importData, h], ?_⟩
    intro l
    simp [importData, h]
  · by_cases h2 : (importBlocks s).filterMap parseBlock = []
    · refine ⟨by simp [importData, h, h2], by simp [importData, h, h2], ?_⟩
      intro l
      simp [importData, h, h2]
    · refine ⟨by simp [importData, h, h2], by simp [importData, h, h2], ?_⟩
      intro l
      simp only [importData, if_neg h, if_neg h2]
      constructor
      · intro hl
        have heq : (importBlocks s).filterMap parseBlock = l := by
          injection hl
        exact ⟨h, heq, heq ▸ h2⟩
      · rintro ⟨-, heq, -⟩
        rw [heq]

theorem c4_witness :
    importData "hello".data = Except.error ImportErr.noValid ∧
    importData "🔵 MARCH 5 2024, TUESDAY\nok".data =
      Except.ok [⟨"2024-03-05".data, MoodColor.blue, "ok".data⟩] :=
  ⟨((c4_error_iff "hello".data).2.1).mpr ⟨by decide, by decide⟩,
   (((c4_error_iff "🔵 MARCH 5 2024, TUESDAY\nok".data).2.2) _).mpr
     ⟨by decide, by decide, by decide⟩⟩

/-! # Sorting lemmas -/

theorem insertByLe_perm (le : MoodEntry → MoodEntry → Bool) (a : MoodEntry) :
    ∀ l, (insertByLe le a l).Perm (a :: l) := by
  intro l
  induction l with
  | nil => rfl
  | cons b l ih =>
      by_cases h : le b a = true
      · simp only [insertByLe, if_pos h]
        exact (ih.cons b).trans (List.Perm.swap a b l)
      · simp only [insertByLe, if_neg h]
        exact List.Perm.refl _

theorem stableSortByLe_perm (le : MoodEntry → MoodEntry → Bool)
    (l : List MoodEntry) : (stableSortByLe le l).Perm l := by
  have aux : ∀ (l acc : List MoodEntry),
      (l.foldl (fun acc a => insertByLe le a acc) acc).Perm (acc ++ l) := by
    intro l
    induction l with
    | nil => simp
    | cons a l ih =>
        intro acc
        refine (ih (insertByLe le a acc)).trans ?_
        refine ((insertByLe_perm le a acc).append_right l).trans ?_
        exact List.perm_middle.symm
  simpa [stableSortByLe] using aux l []

theorem sortEntriesByDate_perm (E : List MoodEntry) (asc : Bool) :
    (sortEntriesByDate E asc).Perm E :=
  stableSortByLe_perm _ E

theorem insertByLe_pairwise {le : MoodEntry → MoodEntry → Bool}
    (htot : ∀ a b, le a b = true ∨ le b a = true)
    (htrans : ∀ a b c, le a b = true → le b c = true → le a c = true)
    (a : MoodEntry) :
    ∀ l, l.Pairwise (fun x y => le x y = true) →
      (insertByLe le a l).Pairwise (fun x y => le x y = true) := by
  intro l
  induction l with
  | nil => simp [insertByLe]
  | cons b l ih =>
      intro h
      rw [List.pairwise_cons] at h
      obtain ⟨hb, hl⟩ := h
      by_cases hba : le b a = true
      · simp only [insertByLe, if_pos hba]
        rw [List.pairwise_cons]
        refine ⟨?_, ih hl⟩
        intro x hx
        rcases List.mem_cons.mp ((insertByLe_perm le a l).mem_iff.mp hx) with hxa | hxl
        · exact hxa ▸ hba
        · exact hb x hxl
      · simp only [insertByLe, if_neg hba]
        rw [List.pairwise_cons]
        have hab : le a b = true := (htot a b).resolve_right (by simpa using hba)
        refine ⟨?_, List.pairwise_cons.mpr ⟨hb, hl⟩⟩
        intro x hx
        rcases List.mem_cons.mp hx with hx | hx
        · exact hx ▸ hab
        · exact htrans a b x hab (hb x hx)

theorem stableSortByLe_pairwise {le : MoodEntry → MoodEntry → Bool}
    (htot : ∀ a b, le a b = true ∨ le b a = true)
    (htrans : ∀ a b c, le a b = true → le b c = true → le a c = true)
    (l : List MoodEntry) :
    (stableSortByLe le l).Pairwise (fun x y => le x y = true) := by
  have aux : ∀ (l acc : List MoodEntry),
      acc.Pairwise (fun x y => le x y = true) →
      (l.foldl (fun acc a => insertByLe le a acc) acc).Pairwise
        (fun x y => le x y = true) := by
    intro l
    induction l with
    | nil => intro acc h; simpa using h
    | cons a l ih =>
        intro acc h
        exact ih _ (insertByLe_pairwise htot htrans a acc h)
  exact aux l [] (by simp)

/-! # Claim C7: the validity filter of the export -/

/-- C7: an entry contributes a block to the export exactly when it is in
the list and satisfies the validity invariant (non-grey mood, or diary
with non-whitespace content); in particular the grey/empty entry of the
claim is excluded while the grey/"hi" entry is included. -/
theorem c7_validity_filter :
    (∀ (E : List MoodEntry) (e : MoodEntry),
        e ∈ sortEntriesByDate (getValidEntries E) false ↔
          e ∈ E ∧ (e.mood ≠ MoodColor.grey ∨ jsTrim e.diary ≠ [])) ∧
    exportData [⟨"2024-01-01".data, MoodColor.grey, [] ⟩] = NO_ENTRIES_MSG ∧
    exportData [⟨"2024-01-01".data, MoodColor.grey, "hi".data⟩] =
      "⚪ JANUARY 1 2024, MONDAY\nhi".data := by
  refine ⟨?_, by decide, by decide⟩
  intro E e
  rw [(sortEntriesByDate_perm _ _).mem_iff, getValidEntries, List.mem_filter]
  simp [entryValid]

theorem c7_witness :
    (⟨"2024-01-01".data, MoodColor.grey, "hi".data⟩ : MoodEntry) ∈
      sortEntriesByDate
        (getValidEntries [⟨"2024-01-01".data, MoodColor.grey, "hi".data⟩]) false :=
  (c7_validity_filter.1 _ _).mpr ⟨by decide, by decide⟩

/-! # Decimal strings, split/join, and date lemmas -/

theorem natToCharsAux_zero (f : Nat) : natToCharsAux f 0 = [] := by
  cases f <;> simp [natToCharsAux]

theorem natToCharsAux_fuel (f1 : Nat) :
    ∀ (f2 n : Nat), n ≤ f1 → n ≤ f2 → natToCharsAux f1 n = natToCharsAux f2 n := by
  induction f1 with
  | zero =>
      intro f2 n h1 _
      have : n = 0 := Nat.le_zero.mp h1
      subst this
      rw [natToCharsAux_zero, natToCharsAux_zero]
  | succ f ih =>
      intro f2 n h1 h2
      by_cases hn : n = 0
      · subst hn
        rw [natToCharsAux_zero, natToCharsAux_zero]
      · cases f2 with
        | zero => omega
        | succ f2 =>
            simp only [natToCharsAux, if_neg hn]
            have hlt : n / 10 < n := Nat.div_lt_self (by omega) (by omega)
            rw [ih f2 (n / 10) (by omega) (by omega)]

theorem natToChars_base {n : Nat} (h1 : 1 ≤ n) (h2 : n ≤ 9) :
    natToChars n = [digitCh n] := by
  have hn : n ≠ 0 := by omega
  cases n with
  | zero => omega
  | succ k =>
      simp only [natToChars, if_neg hn, natToCharsAux, if_neg hn]
      have h10 : (k + 1) / 10 = 0 := by omega
      have hmod : (k + 1) % 10 = k + 1 := by omega
      rw [h10, hmod, natToCharsAux_zero]
      rfl

theorem natToChars_step {n : Nat} (h : 10 ≤ n) :
    natToChars n = natToChars (n / 10) ++ [digitCh (n % 10)] := by
  have hn : n ≠ 0 := by omega
  have hq : n / 10 ≠ 0 := by omega
  cases n with
  | zero => omega
  | succ k =>
      simp only [natToChars, if_neg hn, if_neg hq, natToCharsAux, if_neg hn]
      rw [natToCharsAux_fuel k ((k + 1) / 10) ((k + 1) / 10) (by omega) (by omega)]

theorem natToChars_digits (n : Nat) : ∀ c ∈ natToChars n, isDigitCh c = true := by
  have aux : ∀ f n, n ≤ f → ∀ c ∈ natToCharsAux f n, isDigitCh c = true := by
    intro f
    induction f with
    | zero =>
        intro n h c hc
        have : n = 0 := Nat.le_zero.mp h
        subst this
        rw [natToCharsAux_zero] at hc
        cases hc
    | succ f ih =>
        intro n h c hc
        by_cases hn : n = 0
        · subst hn; rw [natToCharsAux_zero] at hc; cases hc
        · simp only [natToCharsAux, if_neg hn, List.mem_append, List.mem_singleton] at hc
          rcases hc with hc | hc
          · exact ih (n / 10) (by omega) c hc
          · subst hc
            have hd : n % 10 < 10 := Nat.mod_lt _ (by omega)
            interval_cases h : n % 10 <;> decide
  intro c hc
  by_cases hn : n = 0
  · subst hn
    rw [show natToChars 0 = ['0'] from rfl] at hc
    rw [List.mem_singleton] at hc
    subst hc; decide
  · simp only [natToChars, if_neg hn] at hc
    exact aux n n le_rfl c hc

theorem parseIntNat_append_one (s : Str) (c : Char) :
    parseIntNat (s ++ [c]) = parseIntNat s * 10 + (c.toNat - 48) := by
  simp [parseIntNat, List.foldl_append]

theorem parseIntNat_natToChars (n : Nat) : parseIntNat (natToChars n) = n := by
  have aux : ∀ f n, n ≤ f → parseIntNat (natToCharsAux f n) = n := by
    intro f
    induction f with
    | zero =>
        intro n h
        have : n = 0 := Nat.le_zero.mp h
        subst this
        rw [natToCharsAux_zero]; rfl
    | succ f ih =>
        intro n h
        by_cases hn : n = 0
        · subst hn; rw [natToCharsAux_zero]; rfl
        · simp only [natToCharsAux, if_neg hn]
          rw [parseIntNat_append_one, ih (n / 10) (by omega)]
          have hd : n % 10 < 10 := Nat.mod_lt _ (by omega)
          have : (digitCh (n % 10)).toNat = 48 + n % 10 := by
            interval_cases h : n % 10 <;> decide
          omega
  by_cases hn : n = 0
  · subst hn; rfl
  · simp only [natToChars, if_neg hn]
    exact aux n n le_rfl

theorem natToChars_ne_nil (n : Nat) : natToChars n ≠ [] := by
  by_cases hn : n = 0
  · subst hn; decide
  · by_cases h9 : n ≤ 9
    · rw [natToChars_base (by omega) h9]; simp
    · rw [natToChars_step (by omega)]; simp

theorem digitCh_not_dash {c : Char} (h : isDigitCh c = true) : c ≠ '-' := by
  intro he
  subst he
  exact absurd h (by decide)

theorem digitCh_not_nl {c : Char} (h : isDigitCh c = true) : c ≠ '\n' := by
  intro he
  subst he
  exact absurd h (by decide)

theorem splitOnChar_ne_nil (sep : Char) (s : Str) : splitOnChar sep s ≠ [] := by
  simp [splitOnChar]

theorem splitAux_append (sep : Char) (x y : Str) :
    splitAux sep (x ++ sep :: y) =
      ((splitAux sep x).1,
        (splitAux sep x).2 ++ (splitAux sep y).1 :: (splitAux sep y).2) := by
  induction x with
  | nil => simp [splitAux]
  | cons c x ih =>
      by_cases hc : c = sep
      · simp [splitAux, hc, ih]
      · simp [splitAux, hc, ih]

theorem splitOnChar_append (sep : Char) (x y : Str) :
    splitOnChar sep (x ++ sep :: y) = splitOnChar sep x ++ splitOnChar sep y := by
  simp [splitOnChar, splitAux_append]

theorem splitAux_no_sep (sep : Char) (x : Str) (h : sep ∉ x) :
    splitAux sep x = (x, []) := by
  induction x with
  | nil => rfl
  | cons c x ih =>
      have hc : c ≠ sep := fun he => h (he ▸ List.mem_cons_self c x)
      have hx : sep ∉ x := fun hm => h (List.mem_cons_of_mem c hm)
      simp [splitAux, hc, ih hx]

theorem splitOnChar_no_sep (sep : Char) (x : Str) (h : sep ∉ x) :
    splitOnChar sep x = [x] := by
  simp [splitOnChar, splitAux_no_sep sep x h]

theorem splitAux_cons_self (sep : Char) (rest : Str) :
    splitAux sep (sep :: rest) =
      ([], (splitAux sep rest).1 :: (splitAux sep rest).2) := by
  simp [splitAux]

theorem splitAux_cons_ne {sep c : Char} (rest : Str) (h : c ≠ sep) :
    splitAux sep (c :: rest) =
      (c :: (splitAux sep rest).1, (splitAux sep rest).2) := by
  simp [splitAux, h]

theorem joinWith_splitOnChar (sep : Char) (s : Str) :
    joinWith [sep] (splitOnChar sep s) = s := by
  induction s with
  | nil => rfl
  | cons c rest ih =>
      by_cases hc : c = sep
      · subst hc
        rw [splitOnChar, splitAux_cons_self]
        show [] ++ [c] ++
          joinWith [c] ((splitAux c rest).1 :: (splitAux c rest).2) = c :: rest
        rw [show (splitAux c rest).1 :: (splitAux c rest).2 = splitOnChar c rest
            from rfl, ih]
        rfl
      · rw [splitOnChar, splitAux_cons_ne rest hc]
        rcases hps : (splitAux sep rest).2 with - | ⟨q, qs⟩
        · show c :: (splitAux sep rest).1 = c :: rest
          have hi := ih
          rw [splitOnChar, hps] at hi
          simp only [joinWith] at hi
          rw [hi]
        · show (c :: (splitAux sep rest).1) ++ [sep] ++ joinWith [sep] (q :: qs) =
            c :: rest
          have hi := ih
          rw [splitOnChar, hps] at hi
          simp only [joinWith] at hi
          simp only [List.cons_append, List.append_assoc] at hi ⊢
          rw [hi]

theorem parseIntNat_replicate_zero (k : Nat) (s : Str) :
    parseIntNat (List.replicate k '0' ++ s) = parseIntNat s := by
  induction k with
  | zero => rfl
  | succ k ih =>
      have : List.replicate (k + 1) '0' ++ s = '0' :: (List.replicate k '0' ++ s) := by
        simp [List.replicate_succ]
      rw [this]
      simpa [parseIntNat] using ih

theorem parseIntNat_pad2 (s : Str) : parseIntNat (pad2 s) = parseIntNat s := by
  by_cases h : s.length ≥ 2
  · simp [pad2, h]
  · simp only [pad2, if_neg h]
    exact parseIntNat_replicate_zero _ s

theorem pad2_digits (s : Str) (h : ∀ c ∈ s, isDigitCh c = true) :
    ∀ c ∈ pad2 s, isDigitCh c = true := by
  intro c hc
  by_cases h2 : s.length ≥ 2
  · exact h c (by simpa [pad2, h2] using hc)
  · simp only [pad2, if_neg h2, List.mem_append] at hc
    rcases hc with hc | hc
    · have := List.eq_of_mem_replicate hc
      subst this; decide
    · exact h c hc

theorem pad2_ne_nil (s : Str) (h : s ≠ []) : pad2 s ≠ [] := by
  by_cases h2 : s.length ≥ 2
  · simpa [pad2, h2] using h
  · simp only [pad2, if_neg h2]
    intro hc
    exact h (List.append_eq_nil.mp hc).2

theorem jsNumber_digits (s : Str) (h : s ≠ []) (hd : ∀ c ∈ s, isDigitCh c = true) :
    jsNumber? s = some (parseIntNat s) := by
  simp only [jsNumber?, if_neg h]
  rw [if_pos]
  simpa [List.all_eq_true] using hd

theorem daysInMonthYM_ge (y : Int) (m : Nat) : 28 ≤ daysInMonthYM y m := by
  simp only [daysInMonthYM]
  split
  · split <;> omega
  · split <;> omega

theorem daysInMonthYM_le (y : Int) (m : Nat) : daysInMonthYM y m ≤ 31 := by
  simp only [daysInMonthYM]
  split
  · split <;> omega
  · split <;> omega

theorem mkJsDate_id (y : Int) (m d : Nat) (hm : m < 12) (hd1 : 1 ≤ d)
    (hd2 : d ≤ daysInMonthYM y m) : mkJsDate y m d = ⟨y, m, d⟩ := by
  have hfd : (m : Int).fdiv 12 = 0 := by
    rw [Int.fdiv_eq_ediv _ (by norm_num)]
    omega
  have hem : ((m : Int).emod 12).toNat = m := by
    have : (m : Int).emod 12 = m := Int.emod_eq_of_lt (by positivity) (by exact_mod_cast hm)
    rw [this]
    exact Int.toNat_natCast m
  rw [mkJsDate, hfd, hem, add_zero]
  cases d with
  | zero => omega
  | succ k =>
      simp only [dayCarryAux, if_neg (Nat.succ_ne_zero k), if_pos hd2]

theorem formatDate_pieces (y : Int) (m d : Nat) (hy : 0 ≤ y) :
    splitOnChar '-' (formatDate ⟨y, m, d⟩) =
      [natToChars y.toNat, pad2 (natToChars (m + 1)), pad2 (natToChars d)] := by
  have hnd : ∀ s : Str, (∀ c ∈ s, isDigitCh c = true) → '-' ∉ s := by
    intro s hs hm
    exact digitCh_not_dash (hs '-' hm) rfl
  have h1 : '-' ∉ natToChars y.toNat := hnd _ (natToChars_digits _)
  have h2 : '-' ∉ pad2 (natToChars (m + 1)) :=
    hnd _ (pad2_digits _ (natToChars_digits _))
  have h3 : '-' ∉ pad2 (natToChars d) := hnd _ (pad2_digits _ (natToChars_digits _))
  have hfd : formatDate ⟨y, m, d⟩ =
      natToChars y.toNat ++ '-' ::
        (pad2 (natToChars (m + 1)) ++ '-' :: pad2 (natToChars d)) := by
    simp only [formatDate, intToChars, if_neg (by omega : ¬(y < 0))]
    simp
  rw [hfd, splitOnChar_append, splitOnChar_no_sep _ _ h1, splitOnChar_append,
    splitOnChar_no_sep _ _ h2, splitOnChar_no_sep _ _ h3]
  rfl

theorem parseDate_eq_pieces {s : Str} {a b c : Str}
    (h : splitOnChar '-' s = [a, b, c]) :
    parseDate? s = parseDateOfPieces a b c := by
  unfold parseDate?
  rw [h]

theorem parseDate_roundtrip (y : Int) (m d : Nat) (hy : 0 ≤ y) (hm : m < 12)
    (hd1 : 1 ≤ d) (hd2 : d ≤ daysInMonthYM y m) :
    parseDate? (formatDate ⟨y, m, d⟩) = some ⟨y, m, d⟩ := by
  rw [parseDate_eq_pieces (formatDate_pieces y m d hy)]
  have hy1 : jsNumber? (natToChars y.toNat) = some y.toNat := by
    rw [jsNumber_digits _ (natToChars_ne_nil _) (natToChars_digits _),
      parseIntNat_natToChars]
  have hm1 : jsNumber? (pad2 (natToChars (m + 1))) = some (m + 1) := by
    rw [jsNumber_digits _ (pad2_ne_nil _ (natToChars_ne_nil _))
        (pad2_digits _ (natToChars_digits _)),
      parseIntNat_pad2, parseIntNat_natToChars]
  have hd1' : jsNumber? (pad2 (natToChars d)) = some d := by
    rw [jsNumber_digits _ (pad2_ne_nil _ (natToChars_ne_nil _))
        (pad2_digits _ (natToChars_digits _)),
      parseIntNat_pad2, parseIntNat_natToChars]
  unfold parseDateOfPieces
  rw [hy1, hm1, hd1']
  have hcast : ((m + 1 : Nat) : Int) - 1 = (m : Int) := by push_cast; ring
  have hyy : ((y.toNat : Int)) = y := Int.toNat_of_nonneg hy
  show some (mkJsDate (y.toNat : Int) (((m + 1 : Nat) : Int) - 1) d) =
    some (⟨y, m, d⟩ : CDate)
  rw [hcast, hyy, mkJsDate_id y m d hm hd1 hd2]

theorem parseDateD_roundtrip (y : Int) (m d : Nat) (hy : 0 ≤ y) (hm : m < 12)
    (hd1 : 1 ≤ d) (hd2 : d ≤ daysInMonthYM y m) :
    parseDateD (formatDate ⟨y, m, d⟩) = ⟨y, m, d⟩ := by
  rw [parseDateD, parseDate_roundtrip y m d hy hm hd1 hd2]
  rfl

/-! # Claim C8: export emits blocks in strictly descending date order -/

theorem dateLeB_iff (a b : CDate) : dateLeB a b = true ↔
    (a.year < b.year ∨ (a.year = b.year ∧
      (a.month < b.month ∨ (a.month = b.month ∧ a.day ≤ b.day)))) := by
  simp [dateLeB, Bool.or_eq_true, Bool.and_eq_true, decide_eq_true_eq]

theorem dateLeB_total (a b : CDate) : dateLeB a b = true ∨ dateLeB b a = true := by
  rw [dateLeB_iff, dateLeB_iff]
  omega

theorem dateLeB_trans (a b c : CDate) (h1 : dateLeB a b = true)
    (h2 : dateLeB b c = true) : dateLeB a c = true := by
  rw [dateLeB_iff] at h1 h2 ⊢
  omega

/-- The data-model invariant on `date` fields (spec §3: canonical string
form `YYYY-MM-DD`, unique key): the canonical print of a real calendar
date with a 4-digit year. -/
def canonicalDate (s : Str) : Prop :=
  ∃ (y : Int) (m d : Nat), s = formatDate ⟨y, m, d⟩ ∧
    1000 ≤ y ∧ y ≤ 9999 ∧ m < 12 ∧ 1 ≤ d ∧ d ≤ daysInMonthYM y m

theorem canonical_inj {s1 s2 : Str} (h1 : canonicalDate s1) (h2 : canonicalDate s2)
    (he : parseDateD s1 = parseDateD s2) : s1 = s2 := by
  obtain ⟨y1, m1, d1, he1, hy1, -, hm1, hd11, hd12⟩ := h1
  obtain ⟨y2, m2, d2, he2, hy2, -, hm2, hd21, hd22⟩ := h2
  rw [he1, he2, parseDateD_roundtrip y1 m1 d1 (by omega) hm1 hd11 hd12,
    parseDateD_roundtrip y2 m2 d2 (by omega) hm2 hd21 hd22] at he
  rw [he1, he2, he]

theorem sortEntriesByDate_desc_eq (l : List MoodEntry) :
    sortEntriesByDate l false =
      stableSortByLe
        (fun a b => dateLeB (parseDateD b.date) (parseDateD a.date)) l := by
  simp [sortEntriesByDate]

/-- C8: under the data-model invariant on dates (canonical `YYYY-MM-DD`
strings, no duplicate dates), the entry sequence that `exportData` turns
into blocks --- `sortEntriesByDate (getValidEntries E) false` --- is
strictly descending by date: every block's date is strictly more recent
than every later block's date. -/
theorem c8_export_descending (E : List MoodEntry)
    (hcanon : ∀ e ∈ E, canonicalDate e.date)
    (hnodup : (E.map (fun e => e.date)).Nodup) :
    List.Pairwise
      (fun a b =>
        dateLeB (parseDateD b.date) (parseDateD a.date) = true ∧
          parseDateD b.date ≠ parseDateD a.date)
      (sortEntriesByDate (getValidEntries E) false) := by
  rw [sortEntriesByDate_desc_eq]
  have hle :
      List.Pairwise
        (fun a b => dateLeB (parseDateD b.date) (parseDateD a.date) = true)
        (stableSortByLe
          (fun a b => dateLeB (parseDateD b.date) (parseDateD a.date))
          (getValidEntries E)) := by
    refine stableSortByLe_pairwise ?_ ?_ _
    · intro a b
      exact (dateLeB_total (parseDateD b.date) (parseDateD a.date)).symm.imp id id |>.symm.imp id id
    · intro a b c h1 h2
      exact dateLeB_trans _ _ _ h2 h1
  have hperm :
      (stableSortByLe
        (fun a b => dateLeB (parseDateD b.date) (parseDateD a.date))
        (getValidEntries E)).Perm (getValidEntries E) :=
    stableSortByLe_perm _ _
  have hmemE : ∀ e ∈ stableSortByLe
      (fun a b => dateLeB (parseDateD b.date) (parseDateD a.date))
      (getValidEntries E), e ∈ E := by
    intro e he
    exact List.mem_of_mem_filter (hperm.mem_iff.mp he)
  have hnds :
      ((stableSortByLe
        (fun a b => dateLeB (parseDateD b.date) (parseDateD a.date))
        (getValidEntries E)).map (fun e => e.date)).Nodup := by
    have h1 : ((getValidEntries E).map (fun e => e.date)).Nodup :=
      ((List.filter_sublist E).map (fun e => e.date)).nodup hnodup
    exact h1.perm (hperm.map (fun e => e.date)).symm
  have hne :
      List.Pairwise (fun a b : MoodEntry => a.date ≠ b.date)
        (stableSortByLe
          (fun a b => dateLeB (parseDateD b.date) (parseDateD a.date))
          (getValidEntries E)) := by
    rw [List.Nodup, List.pairwise_map] at hnds
    exact hnds
  refine (hle.and hne).imp_of_mem ?_
  intro a b ha hb h
  refine ⟨h.1, ?_⟩
  intro hpd
  exact h.2 (canonical_inj (hcanon b (hmemE b hb)) (hcanon a (hmemE a ha)) hpd).symm

theorem c8_witness :
    List.Pairwise
      (fun a b =>
        dateLeB (parseDateD b.date) (parseDateD a.date) = true ∧
          parseDateD b.date ≠ parseDateD a.date)
      (sortEntriesByDate
        (getValidEntries
          [⟨"2024-01-05".data, MoodColor.red, [] ⟩,
           ⟨"2024-03-05".data, MoodColor.blue, [] ⟩]) false) := by
  refine c8_export_descending _ ?_ (by decide)
  intro e he
  rcases List.mem_cons.mp he with rfl | he2
  · exact ⟨2024, 0, 5, by decide, by norm_num, by norm_num, by norm_num,
      by norm_num, by decide⟩
  · rcases List.mem_cons.mp he2 with rfl | he3
    · exact ⟨2024, 2, 5, by decide, by norm_num, by norm_num, by norm_num,
        by norm_num, by decide⟩
    · cases he3

/-! # Claim C6: tolerance of unmatched close markers -/

/-- One step of the scanner state (tag stack, current text) on a token. -/
def ctStep (st : List Char × Str) (tok : CTok) : List Char × Str :=
  match tok with
  | CTok.chr c => (st.1, st.2 ++ [c])
  | CTok.opn t => (st.1 ++ [t], [])
  | CTok.cls t => (closeTag st.1 t, [])

/-- Scanner state after a token list. -/
def ctState (toks : List CTok) (st : List Char × Str) : List Char × Str :=
  toks.foldl ctStep st

/-- The segments flushed while scanning `toks` (without the final
end-of-input flush); the prefix part of `runToks`. -/
def runPre : List CTok → List Char → Str → List Segment
  | [], _, _ => []
  | CTok.chr c :: rest, stack, cur => runPre rest stack (cur ++ [c])
  | CTok.opn t :: rest, stack, cur =>
      if cur = [] then runPre rest (stack ++ [t]) []
      else ⟨cur, jsSet stack⟩ :: runPre rest (stack ++ [t]) []
  | CTok.cls t :: rest, stack, cur =>
      if cur = [] then runPre rest (closeTag stack t) []
      else ⟨cur, jsSet stack⟩ :: runPre rest (closeTag stack t) []

theorem runToks_append (A : List CTok) :
    ∀ (B : List CTok) (stack : List Char) (cur : Str),
      runToks (A ++ B) stack cur =
        runPre A stack cur ++
          runToks B (ctState A (stack, cur)).1 (ctState A (stack, cur)).2 := by
  induction A with
  | nil => intro B stack cur; rfl
  | cons tok A ih =>
      intro B stack cur
      cases tok with
      | chr c => exact ih B stack (cur ++ [c])
      | opn t =>
          by_cases hc : cur = []
          · simp only [List.cons_append, runToks, runPre, if_pos hc]
            exact ih B (stack ++ [t]) []
          · simp only [List.cons_append, runToks, runPre, if_neg hc,
              List.append_eq]
            rw [ih B (stack ++ [t]) []]
            rfl
      | cls t =>
          by_cases hc : cur = []
          · simp only [List.cons_append, runToks, runPre, if_pos hc]
            exact ih B (closeTag stack t) []
          · simp only [List.cons_append, runToks, runPre, if_neg hc,
              List.append_eq]
            rw [ih B (closeTag stack t) []]
            rfl

theorem filter_not_contains_self (l : List Char) :
    l.filter (fun t => !(l.contains t)) = [] := by
  rw [List.filter_eq_nil_iff]
  intro a ha
  simp [List.elem_eq_mem, ha]

/-- Two adjacent segments carrying the same style set emit no tags
between them, so their texts fuse. -/
theorem emitSegs_merge (active : List Char) (x y : Str) (S : List Char)
    (rest : List Segment) :
    emitSegs active (⟨x, S⟩ :: ⟨y, S⟩ :: rest) =
      emitSegs active (⟨x ++ y, S⟩ :: rest) := by
  simp only [emitSegs, filter_not_contains_self, List.map_nil, List.flatten_nil,
    List.nil_append, List.append_assoc]

/-- Flushing the pending text early (as an unmatched close does) never
changes the emitted output: the flushed segment fuses back with the text
that follows under the same stack. -/
theorem runToks_flush_merge :
    ∀ (B : List CTok) (stack : List Char) (c1 c2 : Str) (active : List Char),
      c1 ≠ [] →
      emitSegs active (⟨c1, jsSet stack⟩ :: runToks B stack c2) =
        emitSegs active (runToks B stack (c1 ++ c2)) := by
  intro B
  induction B with
  | nil =>
      intro stack c1 c2 active h1
      by_cases hc : c2 = []
      · subst hc
        simp [runToks, h1]
      · simp only [runToks, if_neg hc, if_neg (by simp [h1] : ¬(c1 ++ c2 = []))]
        exact emitSegs_merge active c1 c2 (jsSet stack) []
  | cons tok B ih =>
      intro stack c1 c2 active h1
      cases tok with
      | chr c =>
          simp only [runToks]
          rw [ih stack c1 (c2 ++ [c]) active h1, List.append_assoc]
      | opn t =>
          by_cases hc : c2 = []
          · subst hc
            simp [runToks, h1]
          · simp only [runToks, if_neg hc, if_neg (by simp [h1] : ¬(c1 ++ c2 = []))]
            exact emitSegs_merge active c1 c2 (jsSet stack) _
      | cls t =>
          by_cases hc : c2 = []
          · subst hc
            simp [runToks, h1]
          · simp only [runToks, if_neg hc, if_neg (by simp [h1] : ¬(c1 ++ c2 = []))]
            exact emitSegs_merge active c1 c2 (jsSet stack) _

/-- Emission of a concatenated segment list: the prefix emits first
(without final closes), the suffix continues from the last recorded
style set of the prefix. -/
def emitPre : List Char → List Segment → Str
  | _, [] => []
  | active, seg :: rest =>
      ((active.filter (fun t => !(seg.tags.contains t))).map closeTagStr).flatten
        ++ ((seg.tags.filter (fun t => !(active.contains t))).map openTagStr).flatten
        ++ seg.text
        ++ emitPre seg.tags rest

theorem emitSegs_append (P : List Segment) :
    ∀ (active : List Char) (X : List Segment),
      emitSegs active (P ++ X) =
        emitPre active P ++
          emitSegs (P.foldl (fun _ seg => seg.tags) active) X := by
  induction P with
  | nil => intro active X; rfl
  | cons seg P ih =>
      intro active X
      simp only [List.cons_append, emitSegs, emitPre, List.append_eq,
        ih seg.tags X, List.append_assoc, List.foldl_cons]

/-- C6 counterexample.  In `x<</b>b>y` the close-bold tag sits where bold
is not active; deleting it yields `x<b>y`, in which the characters
around the deletion site fuse into a *new* `<b>` tag, so the two outputs
differ (`x<b>y` versus `x<b>y</b>`). -/
theorem c6_counterexample :
    "x<</b>b>y".data = "x<".data ++ closeTagStr 'b' ++ "b>y".data ∧
    'b' ∉ (ctState (ctTokenize "x<".data) ([], [])).1 ∧
    "x<b>y".data = "x<".data ++ "b>y".data ∧
    cleanupTagsS "x<</b>b>y" ≠ cleanupTagsS "x<b>y" := by
  refine ⟨by decide, by decide, by decide, by decide⟩

/-- C6 amended: at the token level the claim holds: a close event for a
style that is not active is absorbed with no effect on the output.  At
the string level it holds provided deleting the four close-tag characters
does not make the surrounding characters re-tokenize (the tokenization of
the string with the tag must be the tokenizations of the two parts around
the close event, and deleting it must not fuse the parts into new
tokens); without that proviso the claim fails (see the counterexample). -/
theorem c6_unmatched_close :
    (∀ (t : Char) (A B : List CTok), t ∉ (ctState A ([], [])).1 →
      emitSegs [] (runToks (A ++ CTok.cls t :: B) [] []) =
        emitSegs [] (runToks (A ++ B) [] [])) ∧
    (∀ (t : Char) (u v : Str),
      ctTokenize (u ++ closeTagStr t ++ v) =
        ctTokenize u ++ CTok.cls t :: ctTokenize v →
      ctTokenize (u ++ v) = ctTokenize u ++ ctTokenize v →
      t ∉ (ctState (ctTokenize u) ([], [])).1 →
      cleanupTags (u ++ closeTagStr t ++ v) = cleanupTags (u ++ v)) := by
  have main : ∀ (t : Char) (A B : List CTok), t ∉ (ctState A ([], [])).1 →
      emitSegs [] (runToks (A ++ CTok.cls t :: B) [] []) =
        emitSegs [] (runToks (A ++ B) [] []) := by
    intro t A B hmem
    rw [runToks_append A (CTok.cls t :: B) [] [], runToks_append A B [] []]
    rw [emitSegs_append, emitSegs_append]
    congr 1
    rcases hsc : ctState A ([], []) with ⟨st, cu⟩
    rw [hsc] at hmem
    dsimp only at hmem ⊢
    have hclose : closeTag st t = st := by
      rw [closeTag_eq_erase]
      exact List.erase_of_not_mem hmem
    by_cases hc : cu = []
    · subst hc
      simp [runToks, hclose]
    · simp only [runToks, if_neg hc, hclose]
      have h2 := runToks_flush_merge B st cu []
        ((runPre A [] []).foldl (fun _ seg => seg.tags) []) hc
      rw [List.append_nil] at h2
      exact h2
  refine ⟨main, ?_⟩
  intro t u v htok1 htok2 hmem
  rw [cleanupTags, cleanupTags, htok1, htok2]
  exact main t (ctTokenize u) (ctTokenize v) hmem

theorem c6_witness :
    'b' ∉ (ctState (ctTokenize "hello ".data) ([], [])).1 ∧
    cleanupTags ("hello ".data ++ closeTagStr 'b' ++ "world".data) =
      cleanupTags ("hello ".data ++ "world".data) :=
  ⟨by decide,
   c6_unmatched_close.2 'b' "hello ".data "world".data (by decide) (by decide)
     (by decide)⟩

/-! # Trim-invariance lemmas

`jsTrim s = s` holds exactly when `s` neither starts nor ends with
whitespace; these lemmas establish that characterization, idempotence of
`jsTrim`, and how `jsTrim` acts on a newline-join of trim-invariant
pieces. -/

def ltrimF (s : Str) : Str := s.dropWhile isWs

def rtrimF (s : Str) : Str := (s.reverse.dropWhile isWs).reverse

theorem jsTrim_eq_rtrim_ltrim (s : Str) : jsTrim s = rtrimF (ltrimF s) := rfl

theorem headq_dropWhile {p : Char → Bool} :
    ∀ {l : Str} {c : Char}, (l.dropWhile p).head? = some c → p c = false := by
  intro l
  induction l with
  | nil => intro c h; cases h
  | cons a l ih =>
      intro c h
      rw [List.dropWhile_cons] at h
      by_cases ha : p a = true
      · rw [if_pos ha] at h
        exact ih h
      · rw [if_neg ha] at h
        cases h
        simpa using ha

theorem getLastq_dropWhile {p : Char → Bool} :
    ∀ {l : Str}, l.dropWhile p ≠ [] → (l.dropWhile p).getLast? = l.getLast? := by
  intro l
  induction l with
  | nil => intro h; simp at h
  | cons a l ih =>
      intro h
      rw [List.dropWhile_cons] at h ⊢
      by_cases ha : p a = true
      · rw [if_pos ha] at h ⊢
        have hl : l ≠ [] := by
          intro he
          subst he
          simp at h
        rw [ih h]
        rcases l with - | ⟨b, l2⟩
        · exact absurd rfl hl
        · rw [List.getLast?_cons_cons]
      · rw [if_neg ha]

theorem length_jsTrim_le_ltrim (s : Str) :
    (jsTrim s).length ≤ (s.dropWhile isWs).length := by
  rw [jsTrim, List.length_reverse]
  calc ((s.dropWhile isWs).reverse.dropWhile isWs).length
      ≤ (s.dropWhile isWs).reverse.length :=
        (List.dropWhile_sublist isWs).length_le
    _ = (s.dropWhile isWs).length := List.length_reverse _

/-- A string starting with whitespace is strictly shortened by `trim`. -/
theorem jsTrim_ne_of_headWs {c : Char} {r : Str} (h : isWs c = true) :
    jsTrim (c :: r) ≠ c :: r := by
  intro he
  have h1 : (jsTrim (c :: r)).length ≤ ((c :: r).dropWhile isWs).length :=
    length_jsTrim_le_ltrim _
  rw [List.dropWhile_cons, if_pos h] at h1
  have h2 : (r.dropWhile isWs).length ≤ r.length :=
    (List.dropWhile_sublist isWs).length_le
  rw [he] at h1
  simp at h1
  omega

/-- A string ending with whitespace is strictly shortened by `trim`. -/
theorem jsTrim_ne_of_lastWs {c : Char} {s : Str} (hws : isWs c = true)
    (hlast : s.getLast? = some c) : jsTrim s ≠ s := by
  intro he
  have hne : s ≠ [] := by
    intro h0
    subst h0
    cases hlast
  by_cases hdw : s.dropWhile isWs = []
  · have : jsTrim s = [] := by
      rw [jsTrim, hdw]
      rfl
    rw [he] at this
    exact hne this
  · have hgl : (s.dropWhile isWs).getLast? = some c := by
      rw [getLastq_dropWhile hdw, hlast]
    have hhd : (s.dropWhile isWs).reverse.head? = some c := by
      rw [List.head?_reverse, hgl]
    rcases hrv : (s.dropWhile isWs).reverse with - | ⟨d, w⟩
    · rw [hrv] at hhd
      cases hhd
    · rw [hrv] at hhd
      have hdc : d = c := by
        cases hhd
        rfl
      subst hdc
      have hlen : (jsTrim s).length < s.length := by
        have e1 : (jsTrim s).length = ((d :: w).dropWhile isWs).length := by
          rw [jsTrim, hrv, List.length_reverse]
        rw [List.dropWhile_cons, if_pos hws] at e1
        have e2 : (w.dropWhile isWs).length ≤ w.length :=
          (List.dropWhile_sublist isWs).length_le
        have e3 : (s.dropWhile isWs).length ≤ s.length :=
          (List.dropWhile_sublist isWs).length_le
        have e4 : (s.dropWhile isWs).length = w.length + 1 := by
          rw [← List.length_reverse (s.dropWhile isWs), hrv]
          simp
        omega
      rw [he] at hlen
      omega

/-- Forward direction of the characterization: a string with no leading
or trailing whitespace is fixed by `trim`. -/
theorem jsTrim_eq_self_of (s : Str)
    (h1 : ∀ c, s.head? = some c → isWs c = false)
    (h2 : ∀ c, s.getLast? = some c → isWs c = false) : jsTrim s = s := by
  have hlt : s.dropWhile isWs = s := by
    cases s with
    | nil => rfl
    | cons a l =>
        rw [List.dropWhile_cons, if_neg]
        simp [h1 a rfl]
  rw [jsTrim, hlt]
  have hrt : s.reverse.dropWhile isWs = s.reverse := by
    cases hr : s.reverse with
    | nil => rfl
    | cons a l =>
        rw [List.dropWhile_cons, if_neg]
        have : s.getLast? = some a := by
          rw [← List.head?_reverse, hr]
          rfl
        simp [h2 a this]
  rw [hrt, List.reverse_reverse]

theorem jsTrim_head_not_ws {s : Str} (h : jsTrim s = s) :
    ∀ c, s.head? = some c → isWs c = false := by
  intro c hc
  by_contra hws
  rcases s with - | ⟨a, l⟩
  · cases hc
  · have ha : a = c := by cases hc; rfl
    subst ha
    exact jsTrim_ne_of_headWs (by simpa using hws) h

theorem jsTrim_last_not_ws {s : Str} (h : jsTrim s = s) :
    ∀ c, s.getLast? = some c → isWs c = false := by
  intro c hc
  by_contra hws
  exact jsTrim_ne_of_lastWs (by simpa using hws) hc h

theorem jsTrim_idem (s : Str) : jsTrim (jsTrim s) = jsTrim s := by
  apply jsTrim_eq_self_of
  · intro c hc
    by_cases hdw : (s.dropWhile isWs).reverse.dropWhile isWs = []
    · rw [jsTrim, hdw] at hc
      cases hc
    · rw [jsTrim, List.head?_reverse, getLastq_dropWhile hdw,
        List.getLast?_reverse] at hc
      exact headq_dropWhile hc
  · intro c hc
    rw [jsTrim, List.getLast?_reverse] at hc
    exact headq_dropWhile hc

theorem mem_of_mem_jsTrim {c : Char} {s : Str} (h : c ∈ jsTrim s) : c ∈ s := by
  rw [jsTrim, List.mem_reverse] at h
  have h1 := (List.dropWhile_sublist isWs).subset h
  rw [List.mem_reverse] at h1
  exact (List.dropWhile_sublist isWs).subset h1

/-! # Join/split interaction lemmas -/

theorem joinWith_cons_cons (sep : Str) (x y : Str) (rest : List Str) :
    joinWith sep (x :: y :: rest) = x ++ sep ++ joinWith sep (y :: rest) := rfl

theorem joinWith_snoc (sep : Str) (p : Str) :
    ∀ ps, ps ≠ [] → joinWith sep (ps ++ [p]) = joinWith sep ps ++ sep ++ p := by
  intro ps
  induction ps with
  | nil => intro h; exact absurd rfl h
  | cons q ps ih =>
      intro _
      cases ps with
      | nil => rfl
      | cons r ps2 =>
          have ih2 := ih (by simp)
          rw [List.cons_append] at ih2
          rw [List.cons_append, List.cons_append, joinWith_cons_cons, ih2,
            joinWith_cons_cons]
          simp [List.append_assoc]

theorem splitAux_sep_free (sep : Char) :
    ∀ s : Str, sep ∉ (splitAux sep s).1 ∧ ∀ p ∈ (splitAux sep s).2, sep ∉ p := by
  intro s
  induction s with
  | nil => exact ⟨by simp [splitAux], by simp [splitAux]⟩
  | cons c rest ih =>
      by_cases hc : c = sep
      · subst hc
        rw [splitAux_cons_self]
        refine ⟨by simp, ?_⟩
        intro p hp
        rcases List.mem_cons.mp hp with rfl | hp2
        · exact ih.1
        · exact ih.2 p hp2
      · rw [splitAux_cons_ne rest hc]
        refine ⟨?_, ih.2⟩
        intro hm
        rcases List.mem_cons.mp hm with he | hm2
        · exact hc he.symm
        · exact ih.1 hm2

theorem splitOnChar_sep_free (sep : Char) (s : Str) :
    ∀ p ∈ splitOnChar sep s, sep ∉ p := by
  intro p hp
  rw [splitOnChar] at hp
  rcases List.mem_cons.mp hp with rfl | hp2
  · exact (splitAux_sep_free sep s).1
  · exact (splitAux_sep_free sep s).2 p hp2

theorem splitOnChar_joinWith (sep : Char) :
    ∀ pieces : List Str, pieces ≠ [] → (∀ p ∈ pieces, sep ∉ p) →
      splitOnChar sep (joinWith [sep] pieces) = pieces := by
  intro pieces
  induction pieces with
  | nil => intro h; exact absurd rfl h
  | cons p rest ih =>
      intro _ hfree
      cases rest with
      | nil => exact splitOnChar_no_sep sep p (hfree p (by simp))
      | cons q rest2 =>
          rw [joinWith_cons_cons, List.append_assoc,
            show ([sep] ++ joinWith [sep] (q :: rest2)) =
              sep :: joinWith [sep] (q :: rest2) from rfl,
            splitOnChar_append, splitOnChar_no_sep sep p (hfree p (by simp)),
            ih (by simp) (fun r hr => hfree r (by simp [hr]))]
          rfl

theorem rtrimF_eq_self {s : Str}
    (h : ∀ c, s.getLast? = some c → isWs c = false) : rtrimF s = s := by
  rw [rtrimF]
  cases hr : s.reverse with
  | nil =>
      rw [List.dropWhile_nil, ← hr, List.reverse_reverse]
  | cons a l =>
      have hla : s.getLast? = some a := by
        rw [← List.head?_reverse, hr]
        rfl
      rw [List.dropWhile_cons, if_neg (by simp [h a hla]), ← hr,
        List.reverse_reverse]

theorem ltrim_join (pieces : List Str) (hinv : ∀ p ∈ pieces, jsTrim p = p) :
    ltrimF (joinWith ['\n'] pieces) =
      joinWith ['\n'] (pieces.dropWhile (fun p => p.isEmpty)) := by
  induction pieces with
  | nil => rfl
  | cons p rest ih =>
      rcases p with - | ⟨c, r⟩
      · cases rest with
        | nil => rfl
        | cons q rest2 =>
            rw [joinWith_cons_cons]
            rw [show (([] : Str) ++ ['\n'] ++ joinWith ['\n'] (q :: rest2)) =
              '\n' :: joinWith ['\n'] (q :: rest2) from rfl]
            rw [show (([] : Str) :: q :: rest2).dropWhile (fun p => p.isEmpty) =
              (q :: rest2).dropWhile (fun p => p.isEmpty) by
                rw [List.dropWhile_cons, if_pos (by simp)]]
            rw [ltrimF, List.dropWhile_cons, if_pos (by decide)]
            exact ih (fun r hr => hinv r (by simp [hr]))
      · have hnonws : isWs c = false :=
          jsTrim_head_not_ws (hinv (c :: r) (by simp)) c rfl
        have hstop : ((c :: r) :: rest).dropWhile (fun p => p.isEmpty) =
            (c :: r) :: rest := by
          rw [List.dropWhile_cons, if_neg (by simp)]
        rw [hstop]
        cases rest with
        | nil =>
            show ltrimF (c :: r) = c :: r
            rw [ltrimF, List.dropWhile_cons, if_neg (by simp [hnonws])]
        | cons q rest2 =>
            rw [joinWith_cons_cons]
            rw [show ((c :: r) ++ ['\n'] ++ joinWith ['\n'] (q :: rest2)) =
              c :: (r ++ ['\n'] ++ joinWith ['\n'] (q :: rest2)) by simp]
            rw [ltrimF, List.dropWhile_cons, if_neg (by simp [hnonws])]

theorem rtrim_join (pieces : List Str) (hinv : ∀ p ∈ pieces, jsTrim p = p) :
    rtrimF (joinWith ['\n'] pieces) =
      joinWith ['\n'] ((pieces.reverse.dropWhile (fun p => p.isEmpty)).reverse) := by
  induction pieces using List.reverseRecOn with
  | nil => rfl
  | append_singleton ps p ih =>
      by_cases hpe : p = []
      · subst hpe
        rcases ps with - | ⟨q, ps2⟩
        · rfl
        · rw [joinWith_snoc ['\n'] [] (q :: ps2) (by simp), List.append_nil]
          rw [show ((q :: ps2) ++ [([] : Str)]).reverse =
            ([] : Str) :: (q :: ps2).reverse by simp]
          rw [List.dropWhile_cons, if_pos (by simp)]
          rw [rtrimF, show ((joinWith ['\n'] (q :: ps2)) ++ ['\n']).reverse =
            '\n' :: (joinWith ['\n'] (q :: ps2)).reverse by simp]
          rw [List.dropWhile_cons, if_pos (by decide)]
          refine ih ?_
          intro r hr
          refine hinv r ?_
          rcases List.mem_cons.mp hr with rfl | h2
          · exact List.mem_cons_self _ _
          · exact List.mem_cons_of_mem _ (List.mem_append_left _ h2)
      · have hmem : p ∈ ps ++ [p] := by simp
        rcases hrev : p.reverse with - | ⟨c, w⟩
        · exact absurd (by simpa using congrArg List.reverse hrev) hpe
        · have hlast : p.getLast? = some c := by
            rw [← List.head?_reverse, hrev]
            rfl
          have hnonws : isWs c = false :=
            jsTrim_last_not_ws (hinv p hmem) c hlast
          have hstop : ((ps ++ [p]).reverse).dropWhile (fun q => q.isEmpty) =
              (ps ++ [p]).reverse := by
            rw [show (ps ++ [p]).reverse = p :: ps.reverse by simp]
            rw [List.dropWhile_cons, if_neg (by simp [hpe])]
          rw [hstop, List.reverse_reverse]
          apply rtrimF_eq_self
          intro d hd
          rcases ps with - | ⟨q, ps2⟩
          · rw [show joinWith ['\n'] ([] ++ [p]) = p from rfl, hlast] at hd
            injection hd with h1
            rw [← h1]
            exact hnonws
          · rw [joinWith_snoc ['\n'] p (q :: ps2) (by simp)] at hd
            rw [List.append_assoc, List.getLast?_append_of_ne_nil _ (by simp [hpe]),
              List.getLast?_append_of_ne_nil _ (by simp [hpe]), hlast] at hd
            injection hd with h1
            rw [← h1]
            exact hnonws

theorem jsTrim_join (pieces : List Str) (hinv : ∀ p ∈ pieces, jsTrim p = p) :
    jsTrim (joinWith ['\n'] pieces) =
      joinWith ['\n']
        (((pieces.dropWhile (fun p => p.isEmpty)).reverse.dropWhile
            (fun p => p.isEmpty)).reverse) := by
  rw [jsTrim_eq_rtrim_ltrim, ltrim_join pieces hinv]
  apply rtrim_join
  intro p hp
  exact hinv p ((List.dropWhile_sublist _).subset hp)

theorem trimPieces_subset (pieces : List Str) :
    ∀ q ∈ (((pieces.dropWhile (fun p => p.isEmpty)).reverse.dropWhile
        (fun p => p.isEmpty)).reverse), q ∈ pieces := by
  intro q hq
  rw [List.mem_reverse] at hq
  have h1 := (List.dropWhile_sublist _).subset hq
  rw [List.mem_reverse] at h1
  exact (List.dropWhile_sublist _).subset h1

/-! # Claim C10: every diary returned by the importer has trimmed lines -/

/-- A string as assembled by the importer's grouping loop: a newline-join
of a nonempty piece list whose pieces are trim-invariant and
newline-free. -/
def blockPieces (b : Str) : Prop :=
  ∃ pieces : List Str, pieces ≠ [] ∧ b = joinWith ['\n'] pieces ∧
    ∀ p ∈ pieces, jsTrim p = p ∧ '\n' ∉ p

theorem blockPieces_nil : blockPieces [] := by
  refine ⟨[[]], by simp, rfl, ?_⟩
  intro p hp
  rw [List.mem_singleton] at hp
  subst hp
  exact ⟨rfl, by simp⟩

theorem blockPieces_single (line : Str) (h : '\n' ∉ line) :
    blockPieces (jsTrim line) := by
  refine ⟨[jsTrim line], by simp, rfl, ?_⟩
  intro p hp
  rw [List.mem_singleton] at hp
  subst hp
  exact ⟨jsTrim_idem line, fun hm => h (mem_of_mem_jsTrim hm)⟩

theorem blockPieces_jsTrim {b : Str} (h : blockPieces b) :
    blockPieces (jsTrim b) := by
  obtain ⟨pieces, hne, hb, hprops⟩ := h
  subst hb
  rw [jsTrim_join pieces (fun p hp => (hprops p hp).1)]
  rcases hres : ((pieces.dropWhile (fun p => p.isEmpty)).reverse.dropWhile
      (fun p => p.isEmpty)).reverse with - | ⟨q, qs⟩
  · rw [hres]
    exact blockPieces_nil
  · rw [hres]
    refine ⟨q :: qs, by simp, rfl, ?_⟩
    intro p hp
    exact hprops p (trimPieces_subset pieces p (hres ▸ hp))

theorem blockPieces_append {b line : Str} (hb : blockPieces b)
    (h : '\n' ∉ line) : blockPieces (b ++ ['\n'] ++ jsTrim line) := by
  obtain ⟨pieces, hne, hbe, hprops⟩ := hb
  refine ⟨pieces ++ [jsTrim line], by simp, ?_, ?_⟩
  · rw [joinWith_snoc ['\n'] (jsTrim line) pieces hne, ← hbe]
  · intro p hp
    rcases List.mem_append.mp hp with h1 | h2
    · exact hprops p h1
    · rw [List.mem_singleton] at h2
      subst h2
      exact ⟨jsTrim_idem line, fun hm => h (mem_of_mem_jsTrim hm)⟩

theorem groupStep_inv {st : List Str × Str} {line : Str}
    (h1 : ∀ b ∈ st.1, blockPieces b) (h2 : blockPieces st.2)
    (hl : '\n' ∉ line) :
    (∀ b ∈ (groupStep st line).1, blockPieces b) ∧
      blockPieces (groupStep st line).2 := by
  rcases st with ⟨blocks, cur⟩
  dsimp only at h1 h2
  unfold groupStep
  dsimp only
  by_cases hc1 : isNewEntry (jsTrim line) ∧ jsTrim cur ≠ []
  · rw [if_pos hc1]
    refine ⟨?_, blockPieces_single line hl⟩
    intro b hb
    rcases List.mem_append.mp hb with hb1 | hb2
    · exact h1 b hb1
    · rw [List.mem_singleton] at hb2
      subst hb2
      exact blockPieces_jsTrim h2
  · rw [if_neg hc1]
    by_cases hc2 : isNewEntry (jsTrim line) = true
    · rw [if_pos hc2]
      exact ⟨h1, blockPieces_single line hl⟩
    · rw [if_neg hc2]
      by_cases hc3 : jsTrim line ≠ [] ∨ cur ≠ []
      · rw [if_pos hc3]
        refine ⟨h1, ?_⟩
        by_cases hcur : cur ≠ []
        · rw [if_pos hcur]
          exact blockPieces_append h2 hl
        · rw [if_neg hcur]
          push_neg at hcur
          subst hcur
          rw [List.nil_append, List.nil_append]
          exact blockPieces_single line hl
      · rw [if_neg hc3]
        exact ⟨h1, h2⟩

theorem importBlocks_pieces (content : Str) :
    ∀ b ∈ importBlocks content, blockPieces b := by
  intro b hb
  have hfold : ∀ (lines : List Str) (st : List Str × Str),
      (∀ l ∈ lines, '\n' ∉ l) →
      (∀ x ∈ st.1, blockPieces x) → blockPieces st.2 →
      (∀ x ∈ (lines.foldl groupStep st).1, blockPieces x) ∧
        blockPieces (lines.foldl groupStep st).2 := by
    intro lines
    induction lines with
    | nil => intro st _ ha hb2; exact ⟨ha, hb2⟩
    | cons l lines ih =>
        intro st hfree ha hb2
        have step := groupStep_inv ha hb2 (hfree l (by simp))
        exact ih (groupStep st l) (fun x hx => hfree x (by simp [hx])) step.1 step.2
  have hres := hfold (splitOnChar '\n' (jsTrim content)) ([], [])
    (fun l hl => splitOnChar_sep_free '\n' (jsTrim content) l hl)
    (by intro x hx; cases hx) blockPieces_nil
  unfold importBlocks at hb
  dsimp only at hb
  by_cases hfin : jsTrim ((splitOnChar '\n' (jsTrim content)).foldl groupStep
      ([], [])).2 ≠ []
  · rw [if_pos hfin] at hb
    rcases List.mem_append.mp hb with hb1 | hb2
    · exact hres.1 b hb1
    · rw [List.mem_singleton] at hb2
      subst hb2
      exact blockPieces_jsTrim hres.2
  · rw [if_neg hfin] at hb
    exact hres.1 b hb

theorem parseBlock_diary_eq {b : Str} {e : MoodEntry}
    (h : parseBlock b = some e) :
    ∃ firstLine restLines, splitOnChar '\n' b = firstLine :: restLines ∧
      e.diary =
        (if restLines ≠ [] then jsTrim (joinWith ['\n'] restLines) else []) := by
  unfold parseBlock at h
  rcases hsp : splitOnChar '\n' b with - | ⟨f, rest⟩
  · exact absurd hsp (splitOnChar_ne_nil '\n' b)
  · rw [hsp] at h
    refine ⟨f, rest, rfl, ?_⟩
    have h2 : ((emojiMatch f).bind (fun em =>
        (emojiToMood? em.1).bind (fun mood =>
          (dateMatch em.2).bind (fun dm =>
            (getMonthIndex dm.1).bind (fun monthIndex =>
              if jsDateInRange (mkJsDate (parseIntNat dm.2.2) monthIndex
                  (parseIntNat dm.2.1)) = true then
                some ⟨formatDate (mkJsDate (parseIntNat dm.2.2) monthIndex
                  (parseIntNat dm.2.1)), mood,
                  if rest ≠ [] then jsTrim (joinWith ['\n'] rest) else []⟩
              else none))))) = some e := h
    clear h
    rename' h2 => h
    rcases hem : emojiMatch f with - | ⟨emoji, dateText⟩
    · rw [hem, Option.none_bind] at h
      exact Option.noConfusion h
    · rw [hem, Option.some_bind] at h
      rcases hmo : emojiToMood? (emoji, dateText).1 with - | ⟨mood⟩
      · rw [hmo, Option.none_bind] at h
        exact Option.noConfusion h
      · rw [hmo, Option.some_bind] at h
        rcases hdm : dateMatch (emoji, dateText).2 with - | ⟨dm⟩
        · rw [hdm, Option.none_bind] at h
          exact Option.noConfusion h
        · rw [hdm, Option.some_bind] at h
          rcases hgm : getMonthIndex dm.1 with - | ⟨mi⟩
          · rw [hgm, Option.none_bind] at h
            exact Option.noConfusion h
          · rw [hgm, Option.some_bind] at h
            by_cases hir : jsDateInRange
                (mkJsDate (parseIntNat dm.2.2) mi (parseIntNat dm.2.1)) = true
            · rw [if_pos hir] at h
              have he := Option.some.inj h
              rw [← he]
            · rw [if_neg hir] at h
              exact Option.noConfusion h

/-- C10: every entry returned by `importData` has a diary that is
whitespace-trimmed as a whole and whose individual lines are each
whitespace-trimmed. -/
theorem c10_diary_lines_trimmed (s : Str) (l : List MoodEntry)
    (h : importData s = Except.ok l) :
    ∀ e ∈ l, jsTrim e.diary = e.diary ∧
      ∀ line ∈ splitOnChar '\n' e.diary, jsTrim line = line := by
  intro e he
  have hl : l = (importBlocks s).filterMap parseBlock := by
    unfold importData at h
    by_cases h1 : jsTrim s = []
    · rw [if_pos h1] at h
      exact Except.noConfusion h
    · rw [if_neg h1] at h
      dsimp only at h
      by_cases h2 : (importBlocks s).filterMap parseBlock = []
      · rw [if_pos h2] at h
        exact Except.noConfusion h
      · rw [if_neg h2] at h
        exact (Except.ok.inj h).symm
  subst hl
  rw [List.mem_filterMap] at he
  obtain ⟨b, hbmem, hbparse⟩ := he
  obtain ⟨pieces, hne, hbe, hprops⟩ := importBlocks_pieces s b hbmem
  obtain ⟨f, rest, hsp, hdiary⟩ := parseBlock_diary_eq hbparse
  have hsp2 : splitOnChar '\n' b = pieces := by
    rw [hbe]
    exact splitOnChar_joinWith '\n' pieces hne (fun p hp => (hprops p hp).2)
  rw [hsp2] at hsp
  by_cases hrest : rest ≠ []
  · rw [if_pos hrest] at hdiary
    have hrprops : ∀ p ∈ rest, jsTrim p = p := by
      intro p hp
      exact (hprops p (by rw [hsp]; exact List.mem_cons_of_mem _ hp)).1
    have hrnl : ∀ p ∈ rest, '\n' ∉ p := by
      intro p hp
      exact (hprops p (by rw [hsp]; exact List.mem_cons_of_mem _ hp)).2
    refine ⟨by rw [hdiary]; exact jsTrim_idem _, ?_⟩
    intro line hline
    rw [hdiary, jsTrim_join rest hrprops] at hline
    rcases hpp : ((rest.dropWhile (fun p => p.isEmpty)).reverse.dropWhile
        (fun p => p.isEmpty)).reverse with - | ⟨q, qs⟩
    · rw [hpp] at hline
      rw [show joinWith ['\n'] ([] : List Str) = [] from rfl] at hline
      rw [show splitOnChar '\n' [] = [[]] from rfl] at hline
      rw [List.mem_singleton] at hline
      subst hline
      rfl
    · rw [hpp] at hline
      rw [splitOnChar_joinWith '\n' (q :: qs) (by simp) (by
        intro p hp
        exact hrnl p (trimPieces_subset rest p (hpp ▸ hp)))] at hline
      exact hrprops line (trimPieces_subset rest line (hpp ▸ hline))
  · rw [if_neg hrest] at hdiary
    rw [hdiary]
    refine ⟨rfl, ?_⟩
    intro line hline
    rw [show splitOnChar '\n' [] = [[]] from rfl, List.mem_singleton] at hline
    subst hline
    rfl

theorem c10_witness :
    importData "🔵 MARCH 5 2024, TUESDAY\n  padded line  \nsecond".data =
      Except.ok [⟨"2024-03-05".data, MoodColor.blue,
        "padded line\nsecond".data⟩] ∧
    jsTrim "padded line\nsecond".data = "padded line\nsecond".data := by
  constructor
  · decide
  · exact (c10_diary_lines_trimmed
      "🔵 MARCH 5 2024, TUESDAY\n  padded line  \nsecond".data
      [⟨"2024-03-05".data, MoodColor.blue, "padded line\nsecond".data⟩]
      (by decide)
      ⟨"2024-03-05".data, MoodColor.blue, "padded line\nsecond".data⟩
      (by decide)).1

/-! # Claim C5: idempotence of the tag normalizer

`cleanupTags` is not idempotent (counterexample below); we prove the
amended statement: it is idempotent on single-style inputs whose text
contains no stray `<`.  The key lemma characterizes the reparse of the
normalizer's own output for such inputs. -/

theorem ctTokenize_cons_ne {c : Char} (l : Str) (h : c ≠ '<') :
    ctTokenize (c :: l) = CTok.chr c :: ctTokenize l := by
  rw [ctTokenize.eq_def]
  split
  · simp_all
  · simp_all
  · simp_all
  · simp_all

theorem ctTokenize_chr_append {x : Str} (h : '<' ∉ x) (r : Str) :
    ctTokenize (x ++ r) = x.map CTok.chr ++ ctTokenize r := by
  induction x with
  | nil => rfl
  | cons c xs ih =>
      have hc : c ≠ '<' := fun he => h (he ▸ List.mem_cons_self c xs)
      have hxs : '<' ∉ xs := fun hm => h (List.mem_cons_of_mem c hm)
      rw [List.cons_append, ctTokenize_cons_ne _ hc, ih hxs, List.map_cons,
        List.cons_append]

theorem ctTokenize_closeTagStr {t : Char} (h : isStyle t = true) (r : Str) :
    ctTokenize (closeTagStr t ++ r) = CTok.cls t :: ctTokenize r := by
  show ctTokenize ('<' :: '/' :: t :: '>' :: r) = CTok.cls t :: ctTokenize r
  have : t = 'b' ∨ t = 'i' ∨ t = 'u' := by
    revert h
    simp only [isStyle, Bool.or_eq_true, beq_iff_eq]
    tauto
  rcases this with rfl | rfl | rfl <;> rfl

theorem ctTokenize_openTagStr {t : Char} (h : isStyle t = true) (r : Str) :
    ctTokenize (openTagStr t ++ r) = CTok.opn t :: ctTokenize r := by
  show ctTokenize ('<' :: t :: '>' :: r) = CTok.opn t :: ctTokenize r
  have : t = 'b' ∨ t = 'i' ∨ t = 'u' := by
    revert h
    simp only [isStyle, Bool.or_eq_true, beq_iff_eq]
    tauto
  rcases this with rfl | rfl | rfl <;> rfl

theorem runToks_chrs (xs : Str) :
    ∀ (R : List CTok) (stack : List Char) (cur : Str),
      runToks (xs.map CTok.chr ++ R) stack cur = runToks R stack (cur ++ xs) := by
  induction xs with
  | nil => intro R stack cur; rw [List.map_nil, List.nil_append, List.append_nil]
  | cons c xs ih =>
      intro R stack cur
      rw [List.map_cons, List.cons_append]
      show runToks (CTok.chr c :: (xs.map CTok.chr ++ R)) stack cur = _
      rw [runToks, ih R stack (cur ++ [c]), List.append_assoc]
      rfl

theorem jsSetAux_mem_absorb (t : Char) :
    ∀ (n : Nat) (seen : List Char), t ∈ seen →
      jsSetAux seen (List.replicate n t) = [] := by
  intro n
  induction n with
  | zero => intro seen _; rfl
  | succ n ih =>
      intro seen hmem
      rw [List.replicate_succ]
      show (if seen.contains t then jsSetAux seen (List.replicate n t)
        else t :: jsSetAux (t :: seen) (List.replicate n t)) = []
      rw [if_pos (by simpa [List.elem_eq_mem] using hmem)]
      exact ih seen hmem

theorem jsSet_replicate (t : Char) (n : Nat) :
    jsSet (List.replicate n t) = if n = 0 then [] else [t] := by
  cases n with
  | zero => rfl
  | succ n =>
      rw [if_neg (Nat.succ_ne_zero n), jsSet, List.replicate_succ]
      show (if List.contains [] t then jsSetAux [] (List.replicate n t)
        else t :: jsSetAux [t] (List.replicate n t)) = [t]
      rw [if_neg (by simp), jsSetAux_mem_absorb t n [t] (by simp)]

theorem closeTag_replicate (t : Char) (n : Nat) :
    closeTag (List.replicate n t) t = List.replicate (n - 1) t := by
  cases n with
  | zero => rfl
  | succ n =>
      rw [closeTag_eq_erase, List.replicate_succ, List.erase_cons_head]
      rfl

/-- Prepend a text run to a segment list, fusing with the head segment
when it carries the same style set. -/
def consMerge (x : Str) (T : List Char) : List Segment → List Segment
  | [] => [⟨x, T⟩]
  | s :: r => if s.tags = T then ⟨x ++ s.text, T⟩ :: r else ⟨x, T⟩ :: s :: r

/-- Fuse adjacent segments with equal style sets. -/
def mergeAdj : List Segment → List Segment
  | [] => []
  | seg :: rest => consMerge seg.text seg.tags (mergeAdj rest)

def mergePre (x : Str) (T : List Char) (segs : List Segment) : List Segment :=
  if x = [] then segs else consMerge x T segs

theorem consMerge_head (x : Str) (T : List Char) (segs : List Segment) :
    ∃ y r, consMerge x T segs = ⟨y, T⟩ :: r := by
  cases segs with
  | nil => exact ⟨x, [], rfl⟩
  | cons s r =>
      by_cases h : s.tags = T
      · exact ⟨x ++ s.text, r, by rw [consMerge, if_pos h]⟩
      · exact ⟨x, s :: r, by rw [consMerge, if_neg h]⟩

theorem emitSegs_consMerge (x : Str) (T : List Char) :
    ∀ (segs : List Segment) (active : List Char),
      emitSegs active (consMerge x T segs) = emitSegs active (⟨x, T⟩ :: segs) := by
  intro segs active
  cases segs with
  | nil => rfl
  | cons s r =>
      by_cases h : s.tags = T
      · rw [consMerge, if_pos h]
        have := emitSegs_merge active x s.text T r
        rw [this.symm, ← h]
      · rw [consMerge, if_neg h]

theorem emitSegs_mergeAdj :
    ∀ (segs : List Segment) (active : List Char),
      emitSegs active (mergeAdj segs) = emitSegs active segs := by
  intro segs
  induction segs with
  | nil => intro active; rfl
  | cons seg rest ih =>
      intro active
      rw [mergeAdj, emitSegs_consMerge]
      show _ ++ _ ++ seg.text ++ emitSegs seg.tags (mergeAdj rest) = _
      rw [ih seg.tags]
      rfl

/-- Single-style token: an open or close of style `t`, or a text
character other than `<`. -/
def singleStyleTok (t : Char) : CTok → Bool
  | CTok.chr c => c ≠ '<'
  | CTok.opn u => u = t
  | CTok.cls u => u = t

/-- Well-formed single-style segments: nonempty `<`-free text, style set
empty or exactly `[t]`. -/
def ssWF (t : Char) (segs : List Segment) : Prop :=
  ∀ seg ∈ segs, seg.text ≠ [] ∧ '<' ∉ seg.text ∧ (seg.tags = [] ∨ seg.tags = [t])

theorem runToks_ssWF (t : Char) :
    ∀ (toks : List CTok), (∀ tok ∈ toks, singleStyleTok t tok = true) →
      ∀ (n : Nat) (cur : Str), '<' ∉ cur →
        ssWF t (runToks toks (List.replicate n t) cur) := by
  intro toks
  induction toks with
  | nil =>
      intro _ n cur hcur
      intro seg hseg
      rw [runToks] at hseg
      by_cases hc : cur = []
      · rw [if_pos hc] at hseg
        cases hseg
      · rw [if_neg hc] at hseg
        rw [List.mem_singleton] at hseg
        subst hseg
        refine ⟨hc, hcur, ?_⟩
        rw [jsSet_replicate]
        by_cases hn : n = 0
        · rw [if_pos hn]; exact Or.inl rfl
        · rw [if_neg hn]; exact Or.inr rfl
  | cons tok rest ih =>
      intro htoks n cur hcur
      have htok := htoks tok (by simp)
      have hrest : ∀ x ∈ rest, singleStyleTok t x = true :=
        fun x hx => htoks x (by simp [hx])
      cases tok with
      | chr c =>
          have hc : c ≠ '<' := by simpa [singleStyleTok] using htok
          rw [runToks]
          exact ih hrest n (cur ++ [c]) (by
            intro hm
            rcases List.mem_append.mp hm with h1 | h2
            · exact hcur h1
            · rw [List.mem_singleton] at h2
              exact hc h2.symm)
      | opn u =>
          have hu : u = t := by simpa [singleStyleTok] using htok
          subst hu
          rw [runToks]
          have hrep : List.replicate n u ++ [u] = List.replicate (n + 1) u := by
            rw [← List.replicate_succ' n u]
          by_cases hc : cur = []
          · rw [if_pos hc, hrep]
            exact ih hrest (n + 1) [] (by simp)
          · rw [if_neg hc, hrep]
            intro seg hseg
            rcases List.mem_cons.mp hseg with rfl | h2
            · refine ⟨hc, hcur, ?_⟩
              rw [jsSet_replicate]
              by_cases hn : n = 0
              · rw [if_pos hn]; exact Or.inl rfl
              · rw [if_neg hn]; exact Or.inr rfl
            · exact ih hrest (n + 1) [] (by simp) seg h2
      | cls u =>
          have hu : u = t := by simpa [singleStyleTok] using htok
          subst hu
          rw [runToks]
          rw [closeTag_replicate]
          by_cases hc : cur = []
          · rw [if_pos hc]
            exact ih hrest (n - 1) [] (by simp)
          · rw [if_neg hc]
            intro seg hseg
            rcases List.mem_cons.mp hseg with rfl | h2
            · refine ⟨hc, hcur, ?_⟩
              rw [jsSet_replicate]
              by_cases hn : n = 0
              · rw [if_pos hn]; exact Or.inl rfl
              · rw [if_neg hn]; exact Or.inr rfl
            · exact ih hrest (n - 1) [] (by simp) seg h2

theorem consMerge_append (x xt : Str) (T : List Char) (_ : xt ≠ []) :
    ∀ segs, consMerge (x ++ xt) T segs = mergePre x T (consMerge xt T segs) := by
  intro segs
  by_cases hx : x = []
  · subst hx
    rw [List.nil_append, mergePre, if_pos rfl]
  · rw [mergePre, if_neg hx]
    cases segs with
    | nil =>
        show [⟨x ++ xt, T⟩] = consMerge x T [⟨xt, T⟩]
        rw [consMerge, if_pos rfl]
    | cons s r =>
        by_cases h : s.tags = T
        · rw [consMerge, if_pos h, consMerge, if_pos h, consMerge, if_pos rfl,
            List.append_assoc]
        · rw [consMerge, if_neg h, consMerge, if_neg h, consMerge, if_pos rfl]

theorem jsSet_nil : jsSet [] = [] := rfl

theorem jsSet_single (t : Char) : jsSet [t] = [t] := by
  simpa using jsSet_replicate t 1

theorem closeTag_single (t : Char) : closeTag [t] t = [] := by
  rw [closeTag_eq_erase, List.erase_cons_head]

theorem filter_not_contains_nil (l : List Char) :
    l.filter (fun u => !(([] : List Char).contains u)) = l := by
  rw [List.filter_eq_self]
  intro a _
  simp

/-- Reparsing the emission of well-formed single-style segments yields
the same segments with adjacent equal-set runs fused; `A` is both the
emitter's active set and the reparser's stack, `x` the pending text. -/
theorem reparse_emit_single (t : Char) (hst : isStyle t = true) :
    ∀ (S : List Segment) (A : List Char) (x : Str),
      (A = [] ∨ A = [t]) → ssWF t S → '<' ∉ x →
      runToks (ctTokenize (emitSegs A S)) A x = mergePre x A (mergeAdj S) := by
  intro S
  induction S with
  | nil =>
      intro A x hA _ _
      rcases hA with rfl | rfl
      · show runToks (ctTokenize []) [] x = mergePre x [] []
        by_cases hc : x = []
        · subst hc; rfl
        · show (if x = [] then [] else [⟨x, jsSet []⟩]) = mergePre x [] []
          rw [if_neg hc, mergePre, if_neg hc, consMerge, jsSet_nil]
      · show runToks (ctTokenize (([t].map closeTagStr).flatten)) [t] x =
          mergePre x [t] []
        rw [show (([t].map closeTagStr).flatten) = closeTagStr t ++ [] by simp,
          ctTokenize_closeTagStr hst []]
        show runToks [CTok.cls t] [t] x = mergePre x [t] []
        by_cases hc : x = []
        · subst hc
          rw [mergePre, if_pos rfl]
          show runToks [] (closeTag [t] t) [] = ([] : List Segment)
          rw [closeTag_single]
          rfl
        · rw [mergePre, if_neg hc, consMerge]
          rw [runToks, if_neg hc, jsSet_single, closeTag_single]
          rfl
  | cons seg rest ih =>
      intro A x hA hwf hx
      obtain ⟨hne, hlt, hT⟩ := hwf seg (by simp)
      have hwfr : ssWF t rest := fun s hs => hwf s (by simp [hs])
      have hMA : mergeAdj (seg :: rest) = consMerge seg.text seg.tags (mergeAdj rest) :=
        rfl
      rcases hA with rfl | rfl
      · rcases hT with hT | hT
        · -- A = [], T = []
          have hemit : emitSegs [] (seg :: rest) = seg.text ++ emitSegs seg.tags rest := by
            show (((List.filter (fun u => !(seg.tags.contains u)) []).map
                closeTagStr).flatten)
              ++ ((seg.tags.filter (fun u => !(([] : List Char).contains u))).map
                openTagStr).flatten
              ++ seg.text ++ emitSegs seg.tags rest = _
            rw [hT]
            simp
          rw [hemit, ctTokenize_chr_append hlt, runToks_chrs, hT]
          rw [ih [] (x ++ seg.text) (Or.inl rfl) hwfr (by
            intro hm
            rcases List.mem_append.mp hm with h1 | h2
            · exact hx h1
            · exact hlt h2)]
          rw [mergePre, if_neg (by simp [hne])]
          rw [consMerge_append x seg.text [] hne, hMA, hT]
        · -- A = [], T = [t]
          have hemit : emitSegs [] (seg :: rest) =
              openTagStr t ++ (seg.text ++ emitSegs seg.tags rest) := by
            show (((List.filter (fun u => !(seg.tags.contains u)) []).map
                closeTagStr).flatten)
              ++ ((seg.tags.filter (fun u => !(([] : List Char).contains u))).map
                openTagStr).flatten
              ++ seg.text ++ emitSegs seg.tags rest = _
            rw [hT, filter_not_contains_nil]
            simp
          rw [hemit, ctTokenize_openTagStr hst, ctTokenize_chr_append hlt]
          show runToks (CTok.opn t :: (seg.text.map CTok.chr ++
            ctTokenize (emitSegs seg.tags rest))) [] x = _
          rw [runToks]
          by_cases hc : x = []
          · rw [if_pos hc, List.nil_append, runToks_chrs, List.nil_append]
            rw [hT]
            rw [ih [t] seg.text (Or.inr rfl) hwfr hlt]
            rw [mergePre, if_neg hne, hc, mergePre, if_pos rfl, hMA, hT]
          · rw [if_neg hc, List.nil_append, runToks_chrs, List.nil_append]
            rw [hT]
            rw [ih [t] seg.text (Or.inr rfl) hwfr hlt]
            rw [mergePre, if_neg hne, hMA, hT]
            obtain ⟨y, r, hcm⟩ := consMerge_head seg.text [t] (mergeAdj rest)
            rw [hcm, mergePre, if_neg hc, consMerge, if_neg (by simp), jsSet_nil]
      · rcases hT with hT | hT
        · -- A = [t], T = []
          have hemit : emitSegs [t] (seg :: rest) =
              closeTagStr t ++ (seg.text ++ emitSegs seg.tags rest) := by
            show ((([t].filter (fun u => !(seg.tags.contains u))).map
                closeTagStr).flatten)
              ++ ((seg.tags.filter (fun u => !(([t] : List Char).contains u))).map
                openTagStr).flatten
              ++ seg.text ++ emitSegs seg.tags rest = _
            rw [hT]
            simp
          rw [hemit, ctTokenize_closeTagStr hst, ctTokenize_chr_append hlt]
          show runToks (CTok.cls t :: (seg.text.map CTok.chr ++
            ctTokenize (emitSegs seg.tags rest))) [t] x = _
          rw [runToks]
          by_cases hc : x = []
          · rw [if_pos hc, closeTag_single, runToks_chrs, List.nil_append]
            rw [hT]
            rw [ih [] seg.text (Or.inl rfl) hwfr hlt]
            rw [mergePre, if_neg hne, hc, mergePre, if_pos rfl, hMA, hT]
          · rw [if_neg hc, closeTag_single, runToks_chrs, List.nil_append]
            rw [hT]
            rw [ih [] seg.text (Or.inl rfl) hwfr hlt]
            rw [mergePre, if_neg hne, hMA, hT]
            obtain ⟨y, r, hcm⟩ := consMerge_head seg.text [] (mergeAdj rest)
            rw [hcm, mergePre, if_neg hc, consMerge, if_neg (by simp), jsSet_single]
        · -- A = [t], T = [t]
          have hemit : emitSegs [t] (seg :: rest) =
              seg.text ++ emitSegs seg.tags rest := by
            show ((([t].filter (fun u => !(seg.tags.contains u))).map
                closeTagStr).flatten)
              ++ ((seg.tags.filter (fun u => !(([t] : List Char).contains u))).map
                openTagStr).flatten
              ++ seg.text ++ emitSegs seg.tags rest = _
            rw [hT, filter_not_contains_self]
            simp
          rw [hemit, ctTokenize_chr_append hlt, runToks_chrs]
          rw [hT]
          rw [ih [t] (x ++ seg.text) (Or.inr rfl) hwfr (by
            intro hm
            rcases List.mem_append.mp hm with h1 | h2
            · exact hx h1
            · exact hlt h2)]
          rw [mergePre, if_neg (by simp [hne])]
          rw [consMerge_append x seg.text [t] hne, hMA, hT]

/-- C5, counterexample: the tag normalizer is not idempotent.  For the
input string b-open, i-open, b-open, x, b-close, y a second pass changes
the output (first pass gives b-open i-open x y i-close b-close, second
pass gives b-open i-open x y b-close i-close). -/
theorem c5_counterexample :
    cleanupTagsS (cleanupTagsS "<b><i><b>x</b>y") ≠
      cleanupTagsS "<b><i><b>x</b>y" := by
  decide

/-- C5 (amended): the tag normalizer is not idempotent in general, but it
is idempotent on every string that uses a single style only and has no
stray left-angle-bracket characters: if every token of the input is either
a plain character other than a left angle bracket, or an open or close
marker of one fixed style t, then cleanupTags (cleanupTags s) =
cleanupTags s. -/
theorem c5_single_style_idempotent (s : Str) (t : Char) (hst : isStyle t = true)
    (hss : ∀ tok ∈ ctTokenize s, singleStyleTok t tok = true) :
    cleanupTags (cleanupTags s) = cleanupTags s := by
  have hwf : ssWF t (runToks (ctTokenize s) [] []) := by
    have h0 := runToks_ssWF t (ctTokenize s) hss 0 [] (by simp)
    simpa using h0
  have hrp := reparse_emit_single t hst (runToks (ctTokenize s) [] []) [] []
    (Or.inl rfl) hwf (by simp)
  show emitSegs []
      (runToks (ctTokenize (emitSegs [] (runToks (ctTokenize s) [] []))) [] []) =
    emitSegs [] (runToks (ctTokenize s) [] [])
  rw [hrp, mergePre, if_pos rfl, emitSegs_mergeAdj]

/-- C5, witness: the amended idempotence theorem applied to the concrete
single-style string a, b-open, x, b-close, y, b-open. -/
theorem c5_witness :
    cleanupTags (cleanupTags ("a<b>x</b>y<b>").data) =
      cleanupTags ("a<b>x</b>y<b>").data :=
  c5_single_style_idempotent ("a<b>x</b>y<b>").data 'b' (by decide) (by decide)

theorem dayCarryAux_year_bound :
    ∀ (fuel : Nat) (y : Int) (m : Nat) (d : Nat),
      y - 1 ≤ (dayCarryAux fuel y m d).year ∧
        (dayCarryAux fuel y m d).year ≤ y + fuel := by
  intro fuel
  induction fuel with
  | zero =>
      intro y m d
      simp only [dayCarryAux]
      omega
  | succ n ih =>
      intro y m d
      rw [dayCarryAux]
      by_cases h0 : d = 0
      · rw [if_pos h0]
        by_cases hm : m = 0
        · rw [if_pos hm]
          simp only []
          omega
        · rw [if_neg hm]
          simp only []
          omega
      · rw [if_neg h0]
        by_cases hle : d ≤ daysInMonthYM y m
        · rw [if_pos hle]
          simp only []
          omega
        · rw [if_neg hle]
          by_cases hm : m = 11
          · rw [if_pos hm]
            obtain ⟨h1, h2⟩ := ih (y + 1) 0 (d - 31)
            omega
          · rw [if_neg hm]
            obtain ⟨h1, h2⟩ := ih y (m + 1) (d - daysInMonthYM y m)
            omega

/-- For a 4-digit year and any day count up to 260000, the rolled-over
date built by `new Date(y, m, d)` stays far inside the `isNaN` range, so
the importer's invalid-date check never fires on it. -/
theorem jsDateInRange_mkJsDate (y : Int) (mi : Nat) (d : Nat)
    (hmi : mi < 12) (hylo : 1000 ≤ y) (hyhi : y ≤ 9999) (hd : d ≤ 260000) :
    jsDateInRange (mkJsDate y mi d) = true := by
  have hfd : (mi : Int).fdiv 12 = 0 := by
    rw [Int.fdiv_eq_ediv _ (by norm_num)]
    omega
  have hem : ((mi : Int).emod 12).toNat = mi := by
    have h : (mi : Int).emod 12 = mi :=
      Int.emod_eq_of_lt (by positivity) (by exact_mod_cast hmi)
    rw [h]
    exact Int.toNat_natCast mi
  rw [mkJsDate, hfd, hem, add_zero]
  obtain ⟨h1, h2⟩ := dayCarryAux_year_bound (d + 1) y mi d
  rw [jsDateInRange]
  have hb1 : (-270000 : Int) ≤ (dayCarryAux (d + 1) y mi d).year := by omega
  have hb2 : (dayCarryAux (d + 1) y mi d).year ≤ 270000 := by omega
  simp [hb1, hb2]

theorem getMonthIndex_lt12 (mn : Str) (mi : Nat)
    (h : getMonthIndex mn = some mi) : mi < 12 := by
  simp only [getMonthIndex] at h
  rcases hf : MONTH_NAMES.findIdx? (fun nm => upStr nm = upStr mn) with - | i
  · rw [hf] at h
    have hmem := List.mem_of_find?_eq_some h
    exact List.mem_range.mp hmem
  · rw [hf] at h
    injection h with h
    rw [← h]
    have hlt := (List.findIdx?_eq_some_iff_findIdx_eq.mp hf).1
    simpa using hlt

/-- C3, counterexample: a header whose day number is out of range for its
month is not skipped.  January has 31 days, yet the day 32 rolls over and
the block yields the entry dated 2024-02-01. -/
theorem c3_counterexample :
    importDataS "🔴 JANUARY 32 2024, MONDAY\nfine" =
      Except.ok [⟨("2024-02-01").data, MoodColor.red, ("fine").data⟩] := by
  decide

/-- C3 (amended): a block whose header line parses (mood emoji, month
name, day digits, 4-digit year, weekday word) is never skipped for an
out-of-range day number: `new Date` rolls the excess days over into the
following months, the resulting time value is not `NaN`, and the block
produces an entry dated with the rolled-over date
`formatDate (mkJsDate year monthIndex day)`; the remaining blocks are
processed independently of it.  (Only a day number large enough to push
the rolled date past the ±100,000,000-day `Date` range — here beyond the
bound 260000, far outside any real diary — could make the `isNaN` check
fire and skip the block.) -/
theorem c3_rollover_not_skipped
    (block firstLine : Str) (restLines : List Str)
    (hsplit : splitOnChar '\n' block = firstLine :: restLines)
    (e : Char) (dt : Str) (hem : emojiMatch firstLine = some (e, dt))
    (mood : MoodColor) (hmood : emojiToMood? e = some mood)
    (mn d1 y1 : Str) (hdm : dateMatch dt = some (mn, d1, y1))
    (mi : Nat) (hmi : getMonthIndex mn = some mi)
    (hylo : 1000 ≤ parseIntNat y1) (hyhi : parseIntNat y1 ≤ 9999)
    (hdhi : parseIntNat d1 ≤ 260000) :
    parseBlock block =
      some ⟨formatDate (mkJsDate (parseIntNat y1) mi (parseIntNat d1)), mood,
        if restLines ≠ [] then jsTrim (joinWith ['\n'] restLines) else []⟩ := by
  have hin : jsDateInRange
      (mkJsDate (parseIntNat y1) mi (parseIntNat d1)) = true :=
    jsDateInRange_mkJsDate (parseIntNat y1) mi (parseIntNat d1)
      (getMonthIndex_lt12 mn mi hmi) (by exact_mod_cast hylo)
      (by exact_mod_cast hyhi) hdhi
  unfold parseBlock
  rw [hsplit]
  show ((emojiMatch firstLine).bind (fun em =>
      (emojiToMood? em.1).bind (fun mood =>
        (dateMatch em.2).bind (fun dm =>
          (getMonthIndex dm.1).bind (fun monthIndex =>
            if jsDateInRange (mkJsDate (parseIntNat dm.2.2) monthIndex
                (parseIntNat dm.2.1)) = true then
              some (MoodEntry.mk (formatDate (mkJsDate (parseIntNat dm.2.2) monthIndex
                (parseIntNat dm.2.1))) mood
                (if restLines ≠ [] then jsTrim (joinWith ['\n'] restLines) else []))
            else none))))) = some (MoodEntry.mk (formatDate (mkJsDate (parseIntNat y1) mi (parseIntNat d1))) mood
      (if restLines ≠ [] then jsTrim (joinWith ['\n'] restLines) else []))
  rw [hem, Option.some_bind]
  show ((emojiToMood? e).bind (fun mood =>
      (dateMatch dt).bind (fun dm =>
        (getMonthIndex dm.1).bind (fun monthIndex =>
          if jsDateInRange (mkJsDate (parseIntNat dm.2.2) monthIndex
              (parseIntNat dm.2.1)) = true then
            some (MoodEntry.mk (formatDate (mkJsDate (parseIntNat dm.2.2) monthIndex
              (parseIntNat dm.2.1))) mood
              (if restLines ≠ [] then jsTrim (joinWith ['\n'] restLines) else []))
          else none)))) = some (MoodEntry.mk (formatDate (mkJsDate (parseIntNat y1) mi (parseIntNat d1))) mood
      (if restLines ≠ [] then jsTrim (joinWith ['\n'] restLines) else []))
  rw [hmood, Option.some_bind, hdm, Option.some_bind]
  show ((getMonthIndex mn).bind (fun monthIndex =>
      if jsDateInRange (mkJsDate (parseIntNat y1) monthIndex
          (parseIntNat d1)) = true then
        some (MoodEntry.mk (formatDate (mkJsDate (parseIntNat y1) monthIndex
          (parseIntNat d1))) mood
          (if restLines ≠ [] then jsTrim (joinWith ['\n'] restLines) else []))
      else none)) = some (MoodEntry.mk (formatDate (mkJsDate (parseIntNat y1) mi (parseIntNat d1))) mood
      (if restLines ≠ [] then jsTrim (joinWith ['\n'] restLines) else []))
  rw [hmi, Option.some_bind]
  show (if jsDateInRange (mkJsDate (parseIntNat y1) mi
      (parseIntNat d1)) = true then
    some (MoodEntry.mk (formatDate (mkJsDate (parseIntNat y1) mi (parseIntNat d1))) mood
      (if restLines ≠ [] then jsTrim (joinWith ['\n'] restLines) else []))
    else none) = some (MoodEntry.mk (formatDate (mkJsDate (parseIntNat y1) mi (parseIntNat d1))) mood
      (if restLines ≠ [] then jsTrim (joinWith ['\n'] restLines) else []))
  rw [if_pos hin]

/-- C3, witness: the rollover theorem applied to the concrete block with
header day 32 in January 2024. -/
theorem c3_witness :
    parseBlock ("🔴 JANUARY 32 2024, MONDAY\nfine").data =
      some ⟨formatDate (mkJsDate (parseIntNat ("2024").data) 0
          (parseIntNat ("32").data)), MoodColor.red,
        if (["fine".data] : List Str) ≠ [] then
          jsTrim (joinWith ['\n'] ["fine".data]) else []⟩ :=
  c3_rollover_not_skipped ("🔴 JANUARY 32 2024, MONDAY\nfine").data
    ("🔴 JANUARY 32 2024, MONDAY").data ["fine".data] (by decide)
    '🔴' ("JANUARY 32 2024, MONDAY").data (by decide)
    MoodColor.red (by decide)
    ("JANUARY").data ("32").data ("2024").data (by decide)
    0 (by decide) (by decide) (by decide) (by decide)

/-! # Claim C1: the export/import round trip -/

theorem takeWhile_append_all {p : Char → Bool} :
    ∀ {a : Str} (b : Str), (∀ c ∈ a, p c = true) →
      (a ++ b).takeWhile p = a ++ b.takeWhile p := by
  intro a
  induction a with
  | nil => intro b _; rfl
  | cons c r ih =>
      intro b ha
      rw [List.cons_append, List.takeWhile_cons, if_pos (ha c (by simp)),
        ih b (fun x hx => ha x (by simp [hx])), List.cons_append]

theorem dropWhile_append_all {p : Char → Bool} :
    ∀ {a : Str} (b : Str), (∀ c ∈ a, p c = true) →
      (a ++ b).dropWhile p = b.dropWhile p := by
  intro a
  induction a with
  | nil => intro b _; rfl
  | cons c r ih =>
      intro b ha
      rw [List.cons_append, List.dropWhile_cons, if_pos (ha c (by simp)),
        ih b (fun x hx => ha x (by simp [hx]))]

theorem takeWhile_cons_neg {p : Char → Bool} {c : Char} (r : Str)
    (h : p c = false) : (c :: r).takeWhile p = [] := by
  rw [List.takeWhile_cons, if_neg (by simp [h])]

theorem dropWhile_cons_neg {p : Char → Bool} {c : Char} (r : Str)
    (h : p c = false) : (c :: r).dropWhile p = c :: r := by
  rw [List.dropWhile_cons, if_neg (by simp [h])]

theorem dropWhile_eq_self_of_head {p : Char → Bool} {l : Str}
    (h : ∀ a, l.head? = some a → p a = false) : l.dropWhile p = l := by
  cases l with
  | nil => rfl
  | cons a r => exact dropWhile_cons_neg r (h a rfl)

theorem takeWhile_nil_of_head {p : Char → Bool} {l : Str}
    (h : ∀ a, l.head? = some a → p a = false) : l.takeWhile p = [] := by
  cases l with
  | nil => rfl
  | cons a r => exact takeWhile_cons_neg r (h a rfl)

theorem digit_not_ws {c : Char} (h : isDigitCh c = true) : isWs c = false := by
  by_contra hw
  rw [Bool.not_eq_false] at hw
  simp only [isWs, Bool.or_eq_true, beq_iff_eq] at hw
  rcases hw with ((((h1 | h1) | h1) | h1) | h1) | h1 <;> subst h1 <;>
    exact absurd h (by decide)

theorem alpha_not_ws {c : Char} (h : isAsciiAlpha c = true) : isWs c = false := by
  by_contra hw
  rw [Bool.not_eq_false] at hw
  simp only [isWs, Bool.or_eq_true, beq_iff_eq] at hw
  rcases hw with ((((h1 | h1) | h1) | h1) | h1) | h1 <;> subst h1 <;>
    exact absurd h (by decide)

theorem alpha_ne_nl {c : Char} (h : isAsciiAlpha c = true) : c ≠ '\n' :=
  fun he => absurd h (by rw [he]; decide)

theorem digit_ne_nl {c : Char} (h : isDigitCh c = true) : c ≠ '\n' :=
  fun he => absurd h (by rw [he]; decide)

theorem month_facts : ∀ m : Nat, m < 12 →
    localeMonthLong m ≠ [] ∧
    ∀ c ∈ upStr (localeMonthLong m), isAsciiAlpha c = true := by
  decide

theorem getMonthIndex_up : ∀ m : Nat, m < 12 →
    getMonthIndex (upStr (localeMonthLong m)) = some m := by
  decide

theorem emod7_toNat_lt (x : Int) : (x.emod 7).toNat < 7 := by
  have h : x.emod 7 = x % 7 := rfl
  rw [h]
  omega

theorem dayOfWeek_lt7 (dt : CDate) : dayOfWeek dt < 7 := emod7_toNat_lt _

theorem weekday_facts : ∀ i : Nat, i < 7 →
    WEEKDAY_LONG.getD i [] ≠ [] ∧
    ∀ c ∈ upStr (WEEKDAY_LONG.getD i []), isAsciiAlpha c = true := by
  decide

theorem emojiToMood_emoji (mood : MoodColor) :
    emojiToMood? (MOOD_EMOJIS mood) = some mood := by
  cases mood <;> rfl

theorem emoji_contains (mood : MoodColor) :
    moodEmojiChars.contains (MOOD_EMOJIS mood) = true := by
  cases mood <;> decide

theorem emoji_not_ws (mood : MoodColor) : isWs (MOOD_EMOJIS mood) = false := by
  cases mood <;> decide

theorem emoji_ne_nl (mood : MoodColor) : MOOD_EMOJIS mood ≠ '\n' := by
  cases mood <;> decide

theorem natToChars_len4 {n : Nat} (h1 : 1000 ≤ n) (h2 : n ≤ 9999) :
    (natToChars n).length = 4 := by
  rw [natToChars_step (by omega), natToChars_step (by omega),
    natToChars_step (by omega), natToChars_base (by omega) (by omega)]
  simp

theorem jsTrim_ne_nil_of_head {e : Char} (r : Str) (h : isWs e = false) :
    jsTrim (e :: r) ≠ [] := by
  rw [jsTrim_eq_rtrim_ltrim, ltrimF, dropWhile_cons_neg r h]
  intro hc
  rw [rtrimF] at hc
  have h0 : (e :: r).reverse.dropWhile isWs = [] := by
    cases hd : (e :: r).reverse.dropWhile isWs with
    | nil => rfl
    | cons a l => rw [hd] at hc; exact absurd hc (by simp)
  rw [List.dropWhile_eq_nil_iff] at h0
  have he : e ∈ (e :: r).reverse := by simp
  exact absurd (h0 e he) (by simp [h])

theorem rtrimF_snoc_ws {c : Char} (x : Str) (h : isWs c = true) :
    rtrimF (x ++ [c]) = rtrimF x := by
  rw [rtrimF, rtrimF, List.reverse_append,
    show (([c] : Str).reverse ++ x.reverse) = c :: x.reverse by simp,
    List.dropWhile_cons, if_pos (by simp [h])]

theorem dropWhile_append_of_ne {p : Char → Bool} :
    ∀ (x y : Str) (a : Char) (t : Str), x.dropWhile p = a :: t →
      (x ++ y).dropWhile p = a :: (t ++ y) := by
  intro x
  induction x with
  | nil => intro y a t h; exact absurd h (by simp)
  | cons b r ih =>
      intro y a t h
      rw [List.dropWhile_cons] at h
      by_cases hb : p b = true
      · rw [if_pos (by simp [hb])] at h
        rw [List.cons_append, List.dropWhile_cons, if_pos (by simp [hb])]
        exact ih y a t h
      · rw [if_neg (by simp [Bool.not_eq_true] at hb ⊢; exact hb)] at h
        injection h with h1 h2
        subst h1
        subst h2
        rw [List.cons_append, List.dropWhile_cons,
          if_neg (by simp [Bool.not_eq_true] at hb ⊢; exact hb)]

theorem jsTrim_snoc_ws {c : Char} (x : Str) (h : isWs c = true) :
    jsTrim (x ++ [c]) = jsTrim x := by
  rw [jsTrim_eq_rtrim_ltrim, jsTrim_eq_rtrim_ltrim]
  cases hx : x.dropWhile isWs with
  | nil =>
      rw [ltrimF, dropWhile_append_all [c]
        (fun d hd => List.dropWhile_eq_nil_iff.mp hx d hd), ltrimF, hx,
        show ([c] : Str).dropWhile isWs = [] from by
          rw [List.dropWhile_cons, if_pos (by simp [h])]; rfl]
  | cons a t =>
      rw [ltrimF, dropWhile_append_of_ne x [c] a t hx, ltrimF, hx,
        show a :: (t ++ [c]) = (a :: t) ++ [c] from rfl, rtrimF_snoc_ws _ h]

theorem dateMatch_shape (mon dS yS wd : Str)
    (hm1 : mon ≠ []) (hm2 : ∀ c ∈ mon, isAsciiAlpha c = true)
    (hd1 : dS ≠ []) (hd2 : ∀ c ∈ dS, isDigitCh c = true)
    (hy2 : ∀ c ∈ yS, isDigitCh c = true) (hy4 : yS.length = 4)
    (hw1 : wd ≠ []) (hw2 : ∀ c ∈ wd, isAsciiAlpha c = true) :
    dateMatch (mon ++ ' ' :: (dS ++ ' ' :: (yS ++ ',' :: ' ' :: wd))) =
      some (mon, dS, yS) := by
  obtain ⟨d0, dr, rfl⟩ : ∃ d0 dr, dS = d0 :: dr := by
    cases dS with
    | nil => exact absurd rfl hd1
    | cons a b => exact ⟨a, b, rfl⟩
  obtain ⟨y0, yr, rfl⟩ : ∃ y0 yr, yS = y0 :: yr := by
    cases yS with
    | nil => simp at hy4
    | cons a b => exact ⟨a, b, rfl⟩
  obtain ⟨w0, wr, rfl⟩ : ∃ w0 wr, wd = w0 :: wr := by
    cases wd with
    | nil => exact absurd rfl hw1
    | cons a b => exact ⟨a, b, rfl⟩
  have hd0 : isDigitCh d0 = true := hd2 d0 (by simp)
  have hy0 : isDigitCh y0 = true := hy2 y0 (by simp)
  have hw0 : isAsciiAlpha w0 = true := hw2 w0 (by simp)
  have h1 : (mon ++ ' ' :: ((d0 :: dr) ++ ' ' ::
      ((y0 :: yr) ++ ',' :: ' ' :: (w0 :: wr)))).takeWhile isAsciiAlpha = mon := by
    rw [takeWhile_append_all _ hm2, takeWhile_cons_neg _ (by decide),
      List.append_nil]
  have h2 : (mon ++ ' ' :: ((d0 :: dr) ++ ' ' ::
      ((y0 :: yr) ++ ',' :: ' ' :: (w0 :: wr)))).dropWhile isAsciiAlpha =
      ' ' :: ((d0 :: dr) ++ ' ' :: ((y0 :: yr) ++ ',' :: ' ' :: (w0 :: wr))) := by
    rw [dropWhile_append_all _ hm2, dropWhile_cons_neg _ (by decide)]
  have h3 : (' ' :: ((d0 :: dr) ++ ' ' ::
      ((y0 :: yr) ++ ',' :: ' ' :: (w0 :: wr)))).takeWhile isWs = [' '] := by
    rw [List.takeWhile_cons, if_pos (by decide), List.cons_append,
      takeWhile_cons_neg _ (digit_not_ws hd0)]
  have h4 : (' ' :: ((d0 :: dr) ++ ' ' ::
      ((y0 :: yr) ++ ',' :: ' ' :: (w0 :: wr)))).dropWhile isWs =
      (d0 :: dr) ++ ' ' :: ((y0 :: yr) ++ ',' :: ' ' :: (w0 :: wr)) := by
    rw [List.dropWhile_cons, if_pos (by decide), List.cons_append,
      dropWhile_cons_neg _ (digit_not_ws hd0), List.cons_append]
  have h5 : ((d0 :: dr) ++ ' ' ::
      ((y0 :: yr) ++ ',' :: ' ' :: (w0 :: wr))).takeWhile isDigitCh =
      d0 :: dr := by
    rw [takeWhile_append_all _ hd2, takeWhile_cons_neg _ (by decide),
      List.append_nil]
  have h6 : ((d0 :: dr) ++ ' ' ::
      ((y0 :: yr) ++ ',' :: ' ' :: (w0 :: wr))).dropWhile isDigitCh =
      ' ' :: ((y0 :: yr) ++ ',' :: ' ' :: (w0 :: wr)) := by
    rw [dropWhile_append_all _ hd2, dropWhile_cons_neg _ (by decide)]
  have h7 : (' ' :: ((y0 :: yr) ++ ',' :: ' ' :: (w0 :: wr))).takeWhile isWs =
      [' '] := by
    rw [List.takeWhile_cons, if_pos (by decide), List.cons_append,
      takeWhile_cons_neg _ (digit_not_ws hy0)]
  have h8 : (' ' :: ((y0 :: yr) ++ ',' :: ' ' :: (w0 :: wr))).dropWhile isWs =
      (y0 :: yr) ++ ',' :: ' ' :: (w0 :: wr) := by
    rw [List.dropWhile_cons, if_pos (by decide), List.cons_append,
      dropWhile_cons_neg _ (digit_not_ws hy0)]
  have h9 : ((y0 :: yr) ++ ',' :: ' ' :: (w0 :: wr)).takeWhile isDigitCh =
      y0 :: yr := by
    rw [takeWhile_append_all _ hy2, takeWhile_cons_neg _ (by decide),
      List.append_nil]
  have h10 : ((y0 :: yr) ++ ',' :: ' ' :: (w0 :: wr)).dropWhile isDigitCh =
      ',' :: ' ' :: (w0 :: wr) := by
    rw [dropWhile_append_all _ hy2, dropWhile_cons_neg _ (by decide)]
  have h11 : (' ' :: (w0 :: wr)).takeWhile isWs = [' '] := by
    rw [List.takeWhile_cons, if_pos (by decide),
      takeWhile_cons_neg _ (alpha_not_ws hw0)]
  have h12 : (' ' :: (w0 :: wr)).dropWhile isWs = w0 :: wr := by
    rw [List.dropWhile_cons, if_pos (by decide),
      dropWhile_cons_neg _ (alpha_not_ws hw0)]
  rw [dateMatch, h1, h2, h3, h4]
  dsimp only
  rw [h5, h6, h7, h8, h9, h10, if_neg hm1, if_neg (by decide), if_neg (by simp),
    if_neg (by decide), if_neg (not_not_intro hy4)]
  split
  next r5 heq =>
    injection heq with he1 he2
    subst he2
    rw [h11, h12, if_neg (by decide), if_pos ⟨by simp, List.all_eq_true.mpr hw2⟩]
  next hne =>
    exact absurd rfl (hne (' ' :: w0 :: wr))

theorem dropWhile_eq_self_of_takeWhile_nil {p : Char → Bool} {l : Str}
    (h : l.takeWhile p = []) : l.dropWhile p = l := by
  cases l with
  | nil => rfl
  | cons a r =>
      rw [List.takeWhile_cons] at h
      by_cases hp : p a = true
      · rw [if_pos (by simp [hp])] at h
        exact absurd h (by simp)
      · exact dropWhile_cons_neg r (by simpa using hp)

theorem dot_of_ne {c : Char} (h1 : c ≠ '\n') (h2 : c ≠ '\r')
    (h3 : c ≠ '\u2028') (h4 : c ≠ '\u2029') : jsDotCh c = true := by
  simp [jsDotCh, h1, h2, h3, h4]

theorem alpha_dot {c : Char} (h : isAsciiAlpha c = true) : jsDotCh c = true := by
  apply dot_of_ne <;> intro he <;> subst he <;> exact absurd h (by decide)

theorem digit_dot {c : Char} (h : isDigitCh c = true) : jsDotCh c = true := by
  apply dot_of_ne <;> intro he <;> subst he <;> exact absurd h (by decide)

theorem emojiMatch_header (e : Char) (fdd : Str)
    (he : moodEmojiChars.contains e = true)
    (h1 : fdd.takeWhile isWs = []) (h2 : fdd ≠ [])
    (h3 : fdd.all jsDotCh = true) :
    emojiMatch (e :: ' ' :: fdd) = some (e, fdd) := by
  have ht : (' ' :: fdd).takeWhile isWs = [' '] := by
    rw [List.takeWhile_cons, if_pos (by decide), h1]
  have hd : (' ' :: fdd).dropWhile isWs = fdd := by
    rw [List.dropWhile_cons, if_pos (by decide)]
    exact dropWhile_eq_self_of_takeWhile_nil h1
  rw [emojiMatch, ht, hd, if_pos he, if_pos ⟨by simp, h2, h3⟩]

theorem isNewEntry_header (e : Char) (mon dS yS wd : Str)
    (he : moodEmojiChars.contains e = true)
    (hm1 : mon ≠ []) (hm2 : ∀ c ∈ mon, isAsciiAlpha c = true)
    (hd1 : dS ≠ []) (hd2 : ∀ c ∈ dS, isDigitCh c = true)
    (hy2 : ∀ c ∈ yS, isDigitCh c = true) (hy4 : yS.length = 4)
    (hw1 : wd ≠ []) (hw2 : ∀ c ∈ wd, isAsciiAlpha c = true) :
    isNewEntry (e :: ' ' :: (mon ++ ' ' :: (dS ++ ' ' :: (yS ++ ',' :: ' ' :: wd)))) =
      true := by
  obtain ⟨m0, mr, rfl⟩ : ∃ m0 mr, mon = m0 :: mr := by
    cases mon with
    | nil => exact absurd rfl hm1
    | cons a b => exact ⟨a, b, rfl⟩
  obtain ⟨d0, dr, rfl⟩ : ∃ d0 dr, dS = d0 :: dr := by
    cases dS with
    | nil => exact absurd rfl hd1
    | cons a b => exact ⟨a, b, rfl⟩
  obtain ⟨y0, yr, rfl⟩ : ∃ y0 yr, yS = y0 :: yr := by
    cases yS with
    | nil => simp at hy4
    | cons a b => exact ⟨a, b, rfl⟩
  obtain ⟨w0, wr, rfl⟩ : ∃ w0 wr, wd = w0 :: wr := by
    cases wd with
    | nil => exact absurd rfl hw1
    | cons a b => exact ⟨a, b, rfl⟩
  have hm0 : isAsciiAlpha m0 = true := hm2 m0 (by simp)
  have hd0 : isDigitCh d0 = true := hd2 d0 (by simp)
  have hy0 : isDigitCh y0 = true := hy2 y0 (by simp)
  have hw0 : isAsciiAlpha w0 = true := hw2 w0 (by simp)
  have h0t : (' ' :: ((m0 :: mr) ++ ' ' :: ((d0 :: dr) ++ ' ' ::
      ((y0 :: yr) ++ ',' :: ' ' :: (w0 :: wr))))).takeWhile isWs = [' '] := by
    rw [List.takeWhile_cons, if_pos (by decide), List.cons_append,
      takeWhile_cons_neg _ (alpha_not_ws hm0)]
  have h0d : (' ' :: ((m0 :: mr) ++ ' ' :: ((d0 :: dr) ++ ' ' ::
      ((y0 :: yr) ++ ',' :: ' ' :: (w0 :: wr))))).dropWhile isWs =
      (m0 :: mr) ++ ' ' :: ((d0 :: dr) ++ ' ' ::
        ((y0 :: yr) ++ ',' :: ' ' :: (w0 :: wr))) := by
    rw [List.dropWhile_cons, if_pos (by decide), List.cons_append,
      dropWhile_cons_neg _ (alpha_not_ws hm0), List.cons_append]
  have h1 : ((m0 :: mr) ++ ' ' :: ((d0 :: dr) ++ ' ' ::
      ((y0 :: yr) ++ ',' :: ' ' :: (w0 :: wr)))).takeWhile isAsciiAlpha =
      m0 :: mr := by
    rw [takeWhile_append_all _ hm2, takeWhile_cons_neg _ (by decide),
      List.append_nil]
  have h2 : ((m0 :: mr) ++ ' ' :: ((d0 :: dr) ++ ' ' ::
      ((y0 :: yr) ++ ',' :: ' ' :: (w0 :: wr)))).dropWhile isAsciiAlpha =
      ' ' :: ((d0 :: dr) ++ ' ' :: ((y0 :: yr) ++ ',' :: ' ' :: (w0 :: wr))) := by
    rw [dropWhile_append_all _ hm2, dropWhile_cons_neg _ (by decide)]
  have h3 : (' ' :: ((d0 :: dr) ++ ' ' ::
      ((y0 :: yr) ++ ',' :: ' ' :: (w0 :: wr)))).takeWhile isWs = [' '] := by
    rw [List.takeWhile_cons, if_pos (by decide), List.cons_append,
      takeWhile_cons_neg _ (digit_not_ws hd0)]
  have h4 : (' ' :: ((d0 :: dr) ++ ' ' ::
      ((y0 :: yr) ++ ',' :: ' ' :: (w0 :: wr)))).dropWhile isWs =
      (d0 :: dr) ++ ' ' :: ((y0 :: yr) ++ ',' :: ' ' :: (w0 :: wr)) := by
    rw [List.dropWhile_cons, if_pos (by decide), List.cons_append,
      dropWhile_cons_neg _ (digit_not_ws hd0), List.cons_append]
  have h5 : ((d0 :: dr) ++ ' ' ::
      ((y0 :: yr) ++ ',' :: ' ' :: (w0 :: wr))).takeWhile isDigitCh =
      d0 :: dr := by
    rw [takeWhile_append_all _ hd2, takeWhile_cons_neg _ (by decide),
      List.append_nil]
  have h6 : ((d0 :: dr) ++ ' ' ::
      ((y0 :: yr) ++ ',' :: ' ' :: (w0 :: wr))).dropWhile isDigitCh =
      ' ' :: ((y0 :: yr) ++ ',' :: ' ' :: (w0 :: wr)) := by
    rw [dropWhile_append_all _ hd2, dropWhile_cons_neg _ (by decide)]
  have h7 : (' ' :: ((y0 :: yr) ++ ',' :: ' ' :: (w0 :: wr))).takeWhile isWs =
      [' '] := by
    rw [List.takeWhile_cons, if_pos (by decide), List.cons_append,
      takeWhile_cons_neg _ (digit_not_ws hy0)]
  have h8 : (' ' :: ((y0 :: yr) ++ ',' :: ' ' :: (w0 :: wr))).dropWhile isWs =
      (y0 :: yr) ++ ',' :: ' ' :: (w0 :: wr) := by
    rw [List.dropWhile_cons, if_pos (by decide), List.cons_append,
      dropWhile_cons_neg _ (digit_not_ws hy0)]
  have h9 : ((y0 :: yr) ++ ',' :: ' ' :: (w0 :: wr)).takeWhile isDigitCh =
      y0 :: yr := by
    rw [takeWhile_append_all _ hy2, takeWhile_cons_neg _ (by decide),
      List.append_nil]
  have h10 : ((y0 :: yr) ++ ',' :: ' ' :: (w0 :: wr)).dropWhile isDigitCh =
      ',' :: ' ' :: (w0 :: wr) := by
    rw [dropWhile_append_all _ hy2, dropWhile_cons_neg _ (by decide)]
  have h11 : (' ' :: (w0 :: wr)).takeWhile isWs = [' '] := by
    rw [List.takeWhile_cons, if_pos (by decide),
      takeWhile_cons_neg _ (alpha_not_ws hw0)]
  have h12 : (' ' :: (w0 :: wr)).dropWhile isWs = w0 :: wr := by
    rw [List.dropWhile_cons, if_pos (by decide),
      dropWhile_cons_neg _ (alpha_not_ws hw0)]
  rw [isNewEntry, h0t, h0d]
  dsimp only
  rw [h1, h2, h3, h4, h5, h6, h7, h8, h9, h10]
  split
  next r6 heq =>
    injection heq with he1 he2
    subst he2
    rw [h11, h12]
    have hmem : e ∈ moodEmojiChars := by simpa using he
    simp [he, hmem, hy4, List.all_eq_true.mpr hw2]
  next hne =>
    exact absurd rfl (hne (' ' :: w0 :: wr))

theorem formatDisplayDate_eq (y : Int) (m d : Nat) (hy : 0 ≤ y) :
    formatDisplayDate ⟨y, m, d⟩ =
      upStr (localeMonthLong m) ++ ' ' :: (natToChars d ++ ' ' ::
        (natToChars y.toNat ++ ',' :: ' ' :: upStr (localeWeekdayLong ⟨y, m, d⟩))) := by
  rw [formatDisplayDate]
  dsimp only
  rw [intToChars, if_neg (by omega : ¬(y < 0))]
  simp

theorem fdd_pieces (y : Int) (m d : Nat) (hy1 : 1000 ≤ y) (hy2 : y ≤ 9999)
    (hm : m < 12) :
    upStr (localeMonthLong m) ≠ [] ∧
    (∀ c ∈ upStr (localeMonthLong m), isAsciiAlpha c = true) ∧
    natToChars d ≠ [] ∧ (∀ c ∈ natToChars d, isDigitCh c = true) ∧
    (∀ c ∈ natToChars y.toNat, isDigitCh c = true) ∧
    (natToChars y.toNat).length = 4 ∧
    upStr (localeWeekdayLong ⟨y, m, d⟩) ≠ [] ∧
    (∀ c ∈ upStr (localeWeekdayLong ⟨y, m, d⟩), isAsciiAlpha c = true) := by
  obtain ⟨hmn, hma⟩ := month_facts m hm
  obtain ⟨hwn, hwa⟩ := weekday_facts (dayOfWeek ⟨y, m, d⟩) (dayOfWeek_lt7 _)
  refine ⟨?_, hma, natToChars_ne_nil d, natToChars_digits d, natToChars_digits _,
    natToChars_len4 (by omega) (by omega), ?_, hwa⟩
  · intro h
    exact hmn (List.map_eq_nil.mp h)
  · intro h
    exact hwn (List.map_eq_nil.mp h)

theorem dateMatch_fdd (y : Int) (m d : Nat) (hy1 : 1000 ≤ y) (hy2 : y ≤ 9999)
    (hm : m < 12) :
    dateMatch (formatDisplayDate ⟨y, m, d⟩) =
      some (upStr (localeMonthLong m), natToChars d, natToChars y.toNat) := by
  obtain ⟨p1, p2, p3, p4, p5, p6, p7, p8⟩ := fdd_pieces y m d hy1 hy2 hm
  rw [formatDisplayDate_eq y m d (by omega)]
  exact dateMatch_shape _ _ _ _ p1 p2 p3 p4 p5 p6 p7 p8

theorem fdd_head_not_ws (y : Int) (m d : Nat) (hy1 : 1000 ≤ y) (hy2 : y ≤ 9999)
    (hm : m < 12) :
    (formatDisplayDate ⟨y, m, d⟩).takeWhile isWs = [] := by
  obtain ⟨p1, p2, _, _, _, _, _, _⟩ := fdd_pieces y m d hy1 hy2 hm
  rw [formatDisplayDate_eq y m d (by omega)]
  obtain ⟨m0, mr, hmon⟩ : ∃ m0 mr, upStr (localeMonthLong m) = m0 :: mr := by
    cases hc : upStr (localeMonthLong m) with
    | nil => exact absurd hc p1
    | cons a b => exact ⟨a, b, rfl⟩
  rw [hmon, List.cons_append,
    takeWhile_cons_neg _ (alpha_not_ws (p2 m0 (by rw [hmon]; simp)))]

theorem fdd_dot (y : Int) (m d : Nat) (hy1 : 1000 ≤ y) (hy2 : y ≤ 9999)
    (hm : m < 12) : (formatDisplayDate ⟨y, m, d⟩).all jsDotCh = true := by
  obtain ⟨p1, p2, p3, p4, p5, p6, p7, p8⟩ := fdd_pieces y m d hy1 hy2 hm
  rw [formatDisplayDate_eq y m d (by omega), List.all_eq_true]
  intro c hc
  rcases List.mem_append.mp hc with hc | hc
  · exact alpha_dot (p2 c hc)
  rcases List.mem_cons.mp hc with rfl | hc
  · decide
  rcases List.mem_append.mp hc with hc | hc
  · exact digit_dot (p4 c hc)
  rcases List.mem_cons.mp hc with rfl | hc
  · decide
  rcases List.mem_append.mp hc with hc | hc
  · exact digit_dot (p5 c hc)
  rcases List.mem_cons.mp hc with rfl | hc
  · decide
  rcases List.mem_cons.mp hc with rfl | hc
  · decide
  · exact alpha_dot (p8 c hc)

theorem emojiMatch_fdd (y : Int) (m d : Nat) (mood : MoodColor)
    (hy1 : 1000 ≤ y) (hy2 : y ≤ 9999) (hm : m < 12) :
    emojiMatch (MOOD_EMOJIS mood :: ' ' :: formatDisplayDate ⟨y, m, d⟩) =
      some (MOOD_EMOJIS mood, formatDisplayDate ⟨y, m, d⟩) := by
  refine emojiMatch_header _ _ (emoji_contains mood)
    (fdd_head_not_ws y m d hy1 hy2 hm) ?_ (fdd_dot y m d hy1 hy2 hm)
  intro hc
  obtain ⟨p1, _, _, _, _, _, _, _⟩ := fdd_pieces y m d hy1 hy2 hm
  rw [formatDisplayDate_eq y m d (by omega)] at hc
  cases hmon : upStr (localeMonthLong m) with
  | nil => exact p1 hmon
  | cons a b => rw [hmon] at hc; exact absurd hc (by simp)

theorem isNewEntry_fdd (y : Int) (m d : Nat) (mood : MoodColor)
    (hy1 : 1000 ≤ y) (hy2 : y ≤ 9999) (hm : m < 12) :
    isNewEntry (MOOD_EMOJIS mood :: ' ' :: formatDisplayDate ⟨y, m, d⟩) = true := by
  obtain ⟨p1, p2, p3, p4, p5, p6, p7, p8⟩ := fdd_pieces y m d hy1 hy2 hm
  rw [formatDisplayDate_eq y m d (by omega)]
  exact isNewEntry_header _ _ _ _ _ (emoji_contains mood) p1 p2 p3 p4 p5 p6 p7 p8

theorem header_nl_free (y : Int) (m d : Nat) (mood : MoodColor)
    (hy1 : 1000 ≤ y) (hy2 : y ≤ 9999) (hm : m < 12) :
    '\n' ∉ (MOOD_EMOJIS mood :: ' ' :: formatDisplayDate ⟨y, m, d⟩) := by
  obtain ⟨p1, p2, p3, p4, p5, p6, p7, p8⟩ := fdd_pieces y m d hy1 hy2 hm
  rw [formatDisplayDate_eq y m d (by omega)]
  have hall : ∀ c ∈ MOOD_EMOJIS mood :: ' ' :: (upStr (localeMonthLong m) ++
      ' ' :: (natToChars d ++ ' ' :: (natToChars y.toNat ++ ',' :: ' ' ::
        upStr (localeWeekdayLong ⟨y, m, d⟩)))), c ≠ '\n' := by
    intro c hc
    rcases List.mem_cons.mp hc with rfl | hc
    · exact emoji_ne_nl mood
    rcases List.mem_cons.mp hc with rfl | hc
    · decide
    rcases List.mem_append.mp hc with hc | hc
    · exact alpha_ne_nl (p2 c hc)
    rcases List.mem_cons.mp hc with rfl | hc
    · decide
    rcases List.mem_append.mp hc with hc | hc
    · exact digit_ne_nl (p4 c hc)
    rcases List.mem_cons.mp hc with rfl | hc
    · decide
    rcases List.mem_append.mp hc with hc | hc
    · exact digit_ne_nl (p5 c hc)
    rcases List.mem_cons.mp hc with rfl | hc
    · decide
    rcases List.mem_cons.mp hc with rfl | hc
    · decide
    · exact alpha_ne_nl (p8 c hc)
  exact fun hm2 => hall '\n' hm2 rfl

theorem header_trim (y : Int) (m d : Nat) (mood : MoodColor)
    (hy1 : 1000 ≤ y) (hy2 : y ≤ 9999) (hm : m < 12) :
    jsTrim (MOOD_EMOJIS mood :: ' ' :: formatDisplayDate ⟨y, m, d⟩) =
      MOOD_EMOJIS mood :: ' ' :: formatDisplayDate ⟨y, m, d⟩ := by
  obtain ⟨p1, p2, p3, p4, p5, p6, p7, p8⟩ := fdd_pieces y m d hy1 hy2 hm
  apply jsTrim_eq_self_of
  · intro c hc
    injection hc with hc
    rw [← hc]
    exact emoji_not_ws mood
  · intro c hc
    rw [formatDisplayDate_eq y m d (by omega)] at hc
    rw [show MOOD_EMOJIS mood :: ' ' :: (upStr (localeMonthLong m) ++
        ' ' :: (natToChars d ++ ' ' :: (natToChars y.toNat ++ ',' :: ' ' ::
          upStr (localeWeekdayLong ⟨y, m, d⟩)))) =
        (MOOD_EMOJIS mood :: ' ' :: upStr (localeMonthLong m) ++
          ' ' :: natToChars d ++ ' ' :: natToChars y.toNat ++ [','] ++ [' ']) ++
          upStr (localeWeekdayLong ⟨y, m, d⟩) by simp] at hc
    rw [List.getLast?_append_of_ne_nil _ p7] at hc
    exact alpha_not_ws (p8 c (List.mem_of_getLast?_eq_some hc))

theorem jsDateInRange_canonical (y : Int) (m d : Nat) (hy1 : 1000 ≤ y)
    (hy2 : y ≤ 9999) : jsDateInRange ⟨y, m, d⟩ = true := by
  rw [jsDateInRange]
  dsimp only
  rw [Bool.and_eq_true, decide_eq_true_eq, decide_eq_true_eq]
  exact ⟨by omega, by omega⟩

theorem parseBlock_canonical {block : Str} {rest : List Str}
    (y : Int) (m d : Nat) (mood : MoodColor)
    (hy1 : 1000 ≤ y) (hy2 : y ≤ 9999) (hm : m < 12) (hd1 : 1 ≤ d)
    (hd2 : d ≤ daysInMonthYM y m)
    (hs : splitOnChar '\n' block =
      (MOOD_EMOJIS mood :: ' ' :: formatDisplayDate ⟨y, m, d⟩) :: rest) :
    parseBlock block =
      some ⟨formatDate ⟨y, m, d⟩, mood,
        if rest ≠ [] then jsTrim (joinWith ['\n'] rest) else []⟩ := by
  unfold parseBlock
  rw [hs]
  show ((emojiMatch (MOOD_EMOJIS mood :: ' ' :: formatDisplayDate ⟨y, m, d⟩)).bind
      (fun em =>
      (emojiToMood? em.1).bind (fun mood =>
        (dateMatch em.2).bind (fun dm =>
          (getMonthIndex dm.1).bind (fun monthIndex =>
            if jsDateInRange (mkJsDate (parseIntNat dm.2.2) monthIndex
                (parseIntNat dm.2.1)) = true then
              some (MoodEntry.mk (formatDate (mkJsDate (parseIntNat dm.2.2)
                monthIndex (parseIntNat dm.2.1))) mood
                (if rest ≠ [] then jsTrim (joinWith ['\n'] rest) else []))
            else none))))) =
      some (MoodEntry.mk (formatDate ⟨y, m, d⟩) mood
        (if rest ≠ [] then jsTrim (joinWith ['\n'] rest) else []))
  rw [emojiMatch_fdd y m d mood hy1 hy2 hm, Option.some_bind]
  show ((emojiToMood? (MOOD_EMOJIS mood)).bind (fun mood =>
      (dateMatch (formatDisplayDate ⟨y, m, d⟩)).bind (fun dm =>
        (getMonthIndex dm.1).bind (fun monthIndex =>
          if jsDateInRange (mkJsDate (parseIntNat dm.2.2) monthIndex
              (parseIntNat dm.2.1)) = true then
            some (MoodEntry.mk (formatDate (mkJsDate (parseIntNat dm.2.2)
              monthIndex (parseIntNat dm.2.1))) mood
              (if rest ≠ [] then jsTrim (joinWith ['\n'] rest) else []))
          else none)))) =
      some (MoodEntry.mk (formatDate ⟨y, m, d⟩) mood
        (if rest ≠ [] then jsTrim (joinWith ['\n'] rest) else []))
  rw [emojiToMood_emoji mood, Option.some_bind,
    dateMatch_fdd y m d hy1 hy2 hm, Option.some_bind]
  show ((getMonthIndex (upStr (localeMonthLong m))).bind (fun monthIndex =>
      if jsDateInRange (mkJsDate (parseIntNat (natToChars y.toNat)) monthIndex
          (parseIntNat (natToChars d))) = true then
        some (MoodEntry.mk (formatDate (mkJsDate (parseIntNat (natToChars y.toNat))
          monthIndex (parseIntNat (natToChars d)))) mood
          (if rest ≠ [] then jsTrim (joinWith ['\n'] rest) else []))
      else none)) =
      some (MoodEntry.mk (formatDate ⟨y, m, d⟩) mood
        (if rest ≠ [] then jsTrim (joinWith ['\n'] rest) else []))
  rw [getMonthIndex_up m hm, Option.some_bind]
  show (if jsDateInRange (mkJsDate (parseIntNat (natToChars y.toNat)) m
      (parseIntNat (natToChars d))) = true then
    some (MoodEntry.mk (formatDate (mkJsDate (parseIntNat (natToChars y.toNat))
      m (parseIntNat (natToChars d)))) mood
      (if rest ≠ [] then jsTrim (joinWith ['\n'] rest) else []))
    else none) =
      some (MoodEntry.mk (formatDate ⟨y, m, d⟩) mood
        (if rest ≠ [] then jsTrim (joinWith ['\n'] rest) else []))
  rw [parseIntNat_natToChars, parseIntNat_natToChars,
    show ((y.toNat : Int)) = y from Int.toNat_of_nonneg (by omega),
    mkJsDate_id y m d hm hd1 hd2,
    if_pos (jsDateInRange_canonical y m d hy1 hy2)]

/-- The newline-prefixed flattening of the lines appended to a growing
block by the grouping loop. -/
def nlFlat (ds : List Str) : Str := (ds.map (fun l => '\n' :: l)).flatten

/-- The accumulated `currentBlock` text of one header-plus-body group. -/
def accOf (g : Str × List Str) : Str := g.1 ++ nlFlat g.2

/-- A group the grouping loop consumes as one block: a header line that
triggers a flush, followed by body lines that are appended verbatim. -/
def goodGroup (g : Str × List Str) : Prop :=
  isNewEntry g.1 = true ∧ jsTrim g.1 = g.1 ∧
    ∀ l ∈ g.2, jsTrim l = l ∧ isNewEntry l = false

/-- The blocks flushed while consuming `groups` with pending text `cur`. -/
def flushed (cur : Str) : List (Str × List Str) → List Str
  | [] => []
  | g :: rest => jsTrim cur :: flushed (accOf g) rest

/-- The pending text left after consuming `groups` with pending `cur`. -/
def finalCur (cur : Str) : List (Str × List Str) → Str
  | [] => cur
  | g :: rest => finalCur (accOf g) rest

theorem joinWith_nlFlat : ∀ (ds : List Str) (x : Str),
    joinWith ['\n'] (x :: ds) = x ++ nlFlat ds := by
  intro ds
  induction ds with
  | nil => intro x; simp [nlFlat, joinWith]
  | cons d r ih =>
      intro x
      rw [joinWith_cons_cons, ih d]
      simp [nlFlat, List.append_assoc]

theorem groupStep_body {B : List Str} {cur : Str} (l : Str) (hcur : cur ≠ [])
    (ht : jsTrim l = l) (hne : isNewEntry l = false) :
    groupStep (B, cur) l = (B, cur ++ '\n' :: l) := by
  rw [groupStep]
  dsimp only
  rw [ht, if_neg (by simp [hne]), if_neg (by simp [hne]),
    if_pos (Or.inr hcur), if_pos hcur]
  simp

theorem groupStep_header {B : List Str} {cur : Str} (h : Str)
    (hh : isNewEntry h = true) (ht : jsTrim h = h) (hcur : jsTrim cur ≠ []) :
    groupStep (B, cur) h = (B ++ [jsTrim cur], h) := by
  rw [groupStep]
  dsimp only
  rw [ht, if_pos ⟨hh, hcur⟩]

theorem groupStep_header0 {B : List Str} (h : Str)
    (hh : isNewEntry h = true) (ht : jsTrim h = h) :
    groupStep (B, []) h = (B, h) := by
  rw [groupStep]
  dsimp only
  rw [ht, if_neg (fun hand => hand.2 rfl), if_pos hh]

theorem foldl_body : ∀ (ds : List Str) (B : List Str) (cur : Str), cur ≠ [] →
    (∀ l ∈ ds, jsTrim l = l ∧ isNewEntry l = false) →
    List.foldl groupStep (B, cur) ds = (B, cur ++ nlFlat ds) := by
  intro ds
  induction ds with
  | nil => intro B cur _ _; simp [nlFlat]
  | cons l r ih =>
      intro B cur hcur hl
      obtain ⟨ht, hne⟩ := hl l (by simp)
      rw [List.foldl_cons, groupStep_body l hcur ht hne,
        ih B (cur ++ '\n' :: l) (by simp) (fun x hx => hl x (by simp [hx]))]
      simp [nlFlat, List.append_assoc]

theorem isNewEntry_head {h : Str} (hh : isNewEntry h = true) :
    ∃ e r, h = e :: r ∧ isWs e = false := by
  cases h with
  | nil => exact absurd hh (by decide)
  | cons e r =>
      refine ⟨e, r, rfl, ?_⟩
      rw [isNewEntry] at hh
      simp only [Bool.and_eq_true] at hh
      have hc : moodEmojiChars.contains e = true := hh.1.1
      have hmem : e ∈ moodEmojiChars := by simpa using hc
      simp only [moodEmojiChars, List.mem_cons, List.not_mem_nil, or_false]
        at hmem
      rcases hmem with rfl | rfl | rfl | rfl | rfl | rfl | rfl <;> decide

theorem flush_ne {h : Str} (hh : isNewEntry h = true) (x : Str) :
    jsTrim (h ++ x) ≠ [] := by
  obtain ⟨e, r, rfl, hws⟩ := isNewEntry_head hh
  rw [List.cons_append]
  exact jsTrim_ne_nil_of_head _ hws

theorem groupFold : ∀ (groups : List (Str × List Str)) (B : List Str)
    (cur : Str), cur ≠ [] → jsTrim cur ≠ [] → (∀ g ∈ groups, goodGroup g) →
    List.foldl groupStep (B, cur) ((groups.map (fun g => g.1 :: g.2)).flatten) =
      (B ++ flushed cur groups, finalCur cur groups) := by
  intro groups
  induction groups with
  | nil => intro B cur _ _ _; simp [flushed, finalCur]
  | cons g rest ih =>
      intro B cur hcur1 hcur2 hg
      obtain ⟨hh, hht, hbody⟩ := hg g (by simp)
      obtain ⟨e, r, hge, hws⟩ := isNewEntry_head hh
      have hgne : g.1 ≠ [] := by rw [hge]; simp
      have haccne : accOf g ≠ [] := by
        rw [accOf, hge, List.cons_append]
        simp
      have hacctr : jsTrim (accOf g) ≠ [] := flush_ne hh (nlFlat g.2)
      have hfold := ih (B ++ [jsTrim cur]) (accOf g) haccne hacctr
        (fun x hx => hg x (by simp [hx]))
      rw [accOf] at hfold
      rw [List.map_cons, List.flatten_cons, List.cons_append, List.foldl_cons,
        groupStep_header g.1 hh hht hcur2, List.foldl_append,
        foldl_body g.2 _ g.1 hgne hbody, hfold]
      rw [flushed, finalCur]
      simp [accOf]

theorem flushed_snoc : ∀ (groups : List (Str × List Str)) (cur : Str),
    flushed cur groups ++ [jsTrim (finalCur cur groups)] =
      jsTrim cur :: groups.map (fun g => jsTrim (accOf g)) := by
  intro groups
  induction groups with
  | nil => intro cur; simp [flushed, finalCur]
  | cons g rest ih =>
      intro cur
      rw [flushed, finalCur, List.cons_append, ih (accOf g), List.map_cons]

theorem finalCur_flush_ne : ∀ (groups : List (Str × List Str)) (cur : Str),
    jsTrim cur ≠ [] → (∀ g ∈ groups, isNewEntry g.1 = true) →
    jsTrim (finalCur cur groups) ≠ [] := by
  intro groups
  induction groups with
  | nil => intro cur h _; exact h
  | cons g rest ih =>
      intro cur _ hg
      rw [finalCur]
      exact ih (accOf g) (flush_ne (hg g (by simp)) (nlFlat g.2))
        (fun x hx => hg x (by simp [hx]))

theorem importBlocks_groups (content : Str) (g0 : Str × List Str)
    (groups : List (Str × List Str))
    (hlines : splitOnChar '\n' (jsTrim content) =
      ((g0 :: groups).map (fun g => g.1 :: g.2)).flatten)
    (hg : ∀ g ∈ g0 :: groups, goodGroup g) :
    importBlocks content = (g0 :: groups).map (fun g => jsTrim (accOf g)) := by
  obtain ⟨hh0, hht0, hbody0⟩ := hg g0 (by simp)
  obtain ⟨e, r, hge, hws⟩ := isNewEntry_head hh0
  have hgne : g0.1 ≠ [] := by rw [hge]; simp
  have hfold := groupFold groups [] (accOf g0)
    (by rw [accOf, hge, List.cons_append]; simp)
    (flush_ne hh0 (nlFlat g0.2)) (fun x hx => hg x (by simp [hx]))
  have hfin := finalCur_flush_ne groups (accOf g0) (flush_ne hh0 (nlFlat g0.2))
    (fun x hx => (hg x (by simp [hx])).1)
  have hsnoc := flushed_snoc groups (accOf g0)
  rw [accOf] at hfold hfin hsnoc
  rw [importBlocks]
  rw [hlines, List.map_cons, List.flatten_cons, List.cons_append,
    List.foldl_cons, groupStep_header0 g0.1 hh0 hht0, List.foldl_append,
    foldl_body g0.2 _ g0.1 hgne hbody0, hfold]
  dsimp only
  rw [if_pos hfin, List.nil_append, hsnoc, List.map_cons]
  rw [accOf]

/-- The header line of an exported block (`exportData` line 240). -/
def hdr (e : MoodEntry) : Str :=
  MOOD_EMOJIS e.mood :: ' ' :: formatDisplayDate (parseDateD e.date)

/-- The group of lines the grouping loop consumes for the last exported
entry: its diary lines, with the trailing empty line of an empty diary
already swallowed by the importer's whole-content trim. -/
def lastGroup (e : MoodEntry) : Str × List Str :=
  (hdr e, if cleanupTags e.diary = [] then []
    else splitOnChar '\n' (cleanupTags e.diary))

/-- The groups of lines the grouping loop consumes on the trimmed export
of `L`: every entry contributes its header and diary lines; the blank
separator line lands in the preceding entry's group. -/
def importGroupsOf : List MoodEntry → List (Str × List Str)
  | [] => []
  | [e] => [lastGroup e]
  | e :: e2 :: rest =>
      (hdr e, splitOnChar '\n' (cleanupTags e.diary) ++ [[]]) ::
        importGroupsOf (e2 :: rest)

theorem exportBlock_eq (e : MoodEntry) :
    exportBlock e = hdr e ++ '\n' :: cleanupTags e.diary := by
  rw [exportBlock, hdr]
  simp

theorem nlFlat_snoc (xs : List Str) :
    nlFlat (xs ++ [[]]) = nlFlat xs ++ ['\n'] := by
  simp [nlFlat]

theorem joinWith_append (sep : Str) : ∀ (a b : List Str), a ≠ [] → b ≠ [] →
    joinWith sep (a ++ b) = joinWith sep a ++ sep ++ joinWith sep b := by
  intro a
  induction a with
  | nil => intro b h _; exact absurd rfl h
  | cons x a2 ih =>
      intro b _ hb
      cases a2 with
      | nil =>
          cases b with
          | nil => exact absurd rfl hb
          | cons y bs =>
              rw [show ([x] ++ y :: bs) = x :: y :: bs from rfl,
                joinWith_cons_cons]
              rfl
      | cons z a3 =>
          have ih2 := ih b (by simp) hb
          rw [List.cons_append] at ih2
          rw [List.cons_append, List.cons_append, joinWith_cons_cons, ih2,
            joinWith_cons_cons]
          simp [List.append_assoc]

theorem joinWith_hdr_split (x c : Str) :
    joinWith ['\n'] (x :: splitOnChar '\n' c) = x ++ '\n' :: c := by
  rcases hds : splitOnChar '\n' c with - | ⟨p, ps⟩
  · exact absurd hds (splitOnChar_ne_nil '\n' c)
  · rw [← hds]
    rcases hds2 : splitOnChar '\n' c with - | ⟨q, qs⟩
    · exact absurd hds2 (splitOnChar_ne_nil '\n' c)
    · rw [show x :: q :: qs = x :: (q :: qs) from rfl, joinWith_cons_cons,
        ← hds2, joinWith_splitOnChar]
      simp

theorem ltrimF_cons_neg {e : Char} (r : Str) (h : isWs e = false) :
    ltrimF (e :: r) = e :: r := by
  rw [ltrimF, dropWhile_cons_neg r h]

theorem rtrimF_append_of_ne (a b : Str) (hb : rtrimF b ≠ []) :
    rtrimF (a ++ b) = a ++ rtrimF b := by
  have hsplit : ∃ q t, b.reverse.dropWhile isWs = q :: t := by
    cases hd : b.reverse.dropWhile isWs with
    | nil => exact absurd (by rw [rtrimF, hd]; rfl) hb
    | cons q t => exact ⟨q, t, rfl⟩
  obtain ⟨q, t, hqt⟩ := hsplit
  rw [rtrimF, List.reverse_append, dropWhile_append_of_ne _ _ q t hqt,
    rtrimF, hqt]
  simp

theorem joinWith_cons_ne (sep : Str) (x : Str) (xs : List Str) (hx : x ≠ []) :
    joinWith sep (x :: xs) ≠ [] := by
  cases xs with
  | nil => exact hx
  | cons y ys =>
      rw [joinWith_cons_cons]
      simp [hx]

theorem importGroupsOf_cons (e : MoodEntry) (L2 : List MoodEntry) :
    ∃ ds gr, importGroupsOf (e :: L2) = (hdr e, ds) :: gr := by
  cases L2 with
  | nil => exact ⟨_, [], rfl⟩
  | cons e2 rest => exact ⟨_, _, rfl⟩

theorem jsTrim_hdr_block (h c : Str) (hh : jsTrim h = h) (hne : h ≠ [])
    (hhw : ∀ a, h.head? = some a → isWs a = false) (hct : jsTrim c = c) :
    jsTrim (h ++ nlFlat (splitOnChar '\n' c)) =
      if c = [] then h else h ++ '\n' :: c := by
  have hjoin : h ++ nlFlat (splitOnChar '\n' c) = h ++ '\n' :: c := by
    rw [← joinWith_nlFlat, joinWith_hdr_split]
  rw [hjoin]
  by_cases hc : c = []
  · subst hc
    rw [if_pos rfl, show h ++ '\n' :: ([] : Str) = h ++ ['\n'] from rfl,
      jsTrim_snoc_ws _ (by decide), hh]
  · rw [if_neg hc]
    apply jsTrim_eq_self_of
    · intro a ha
      cases hhd : h with
      | nil => exact absurd hhd hne
      | cons h0 hr =>
          rw [hhd, List.cons_append] at ha
          injection ha with ha1
          rw [← ha1]
          exact hhw h0 (by rw [hhd]; rfl)
    · intro a ha
      rw [List.getLast?_append_of_ne_nil _ (by simp)] at ha
      cases hcc : c with
      | nil => exact absurd hcc hc
      | cons c0 cr =>
          rw [hcc, List.getLast?_cons_cons] at ha
          rw [hcc] at hct
          exact jsTrim_last_not_ws hct a ha

theorem jsTrim_mid_block (h c : Str) (hh : jsTrim h = h) (hne : h ≠ [])
    (hhw : ∀ a, h.head? = some a → isWs a = false) (hct : jsTrim c = c) :
    jsTrim (h ++ nlFlat (splitOnChar '\n' c ++ [[]])) =
      if c = [] then h else h ++ '\n' :: c := by
  rw [nlFlat_snoc, ← List.append_assoc, jsTrim_snoc_ws _ (by decide),
    jsTrim_hdr_block h c hh hne hhw hct]

theorem jsTrim_last_block (h c : Str) (hh : jsTrim h = h) (hne : h ≠ [])
    (hhw : ∀ a, h.head? = some a → isWs a = false) (hct : jsTrim c = c) :
    jsTrim (h ++ nlFlat (if c = [] then [] else splitOnChar '\n' c)) =
      if c = [] then h else h ++ '\n' :: c := by
  by_cases hc : c = []
  · rw [if_pos hc, if_pos hc, show nlFlat [] = [] from rfl, List.append_nil, hh]
  · rw [if_neg hc, jsTrim_hdr_block h c hh hne hhw hct]

theorem parse_entry_block (y : Int) (m d : Nat) (mood : MoodColor) (c : Str)
    (hy1 : 1000 ≤ y) (hy2 : y ≤ 9999) (hm : m < 12) (hd1 : 1 ≤ d)
    (hd2 : d ≤ daysInMonthYM y m) (hct : jsTrim c = c) :
    parseBlock (if c = [] then
        MOOD_EMOJIS mood :: ' ' :: formatDisplayDate ⟨y, m, d⟩
      else (MOOD_EMOJIS mood :: ' ' :: formatDisplayDate ⟨y, m, d⟩) ++
        '\n' :: c) =
      some ⟨formatDate ⟨y, m, d⟩, mood, c⟩ := by
  by_cases hc : c = []
  · subst hc
    rw [if_pos rfl]
    have hsplit : splitOnChar '\n'
        (MOOD_EMOJIS mood :: ' ' :: formatDisplayDate ⟨y, m, d⟩) =
        (MOOD_EMOJIS mood :: ' ' :: formatDisplayDate ⟨y, m, d⟩) :: ([] : List Str) :=
      splitOnChar_no_sep _ _ (header_nl_free y m d mood hy1 hy2 hm)
    have hp := parseBlock_canonical y m d mood hy1 hy2 hm hd1 hd2 hsplit
    rw [hp, if_neg (by simp)]
  · rw [if_neg hc]
    have hsplit : splitOnChar '\n'
        ((MOOD_EMOJIS mood :: ' ' :: formatDisplayDate ⟨y, m, d⟩) ++ '\n' :: c) =
        (MOOD_EMOJIS mood :: ' ' :: formatDisplayDate ⟨y, m, d⟩) ::
          splitOnChar '\n' c := by
      rw [splitOnChar_append,
        splitOnChar_no_sep _ _ (header_nl_free y m d mood hy1 hy2 hm)]
      rfl
    have hp := parseBlock_canonical y m d mood hy1 hy2 hm hd1 hd2 hsplit
    rw [hp, if_pos (splitOnChar_ne_nil '\n' c), joinWith_splitOnChar, hct]

/-- The conditions under which an entry survives the export/import round
trip unchanged (beyond tag normalization): its date satisfies the data
model's canonical-format invariant, and its normalized diary is already
line-trimmed with no line that looks like an entry header. -/
def entryExportable (e : MoodEntry) : Prop :=
  canonicalDate e.date ∧
  jsTrim (cleanupTags e.diary) = cleanupTags e.diary ∧
  ∀ line ∈ splitOnChar '\n' (cleanupTags e.diary),
    jsTrim line = line ∧ isNewEntry line = false

theorem entry_hdr_facts {e : MoodEntry} (he : entryExportable e) :
    ∃ (y : Int) (m d : Nat), e.date = formatDate ⟨y, m, d⟩ ∧
      1000 ≤ y ∧ y ≤ 9999 ∧ m < 12 ∧ 1 ≤ d ∧ d ≤ daysInMonthYM y m ∧
      hdr e = MOOD_EMOJIS e.mood :: ' ' :: formatDisplayDate ⟨y, m, d⟩ := by
  obtain ⟨⟨y, m, d, hdate, hy1, hy2, hm, hd1, hd2⟩, _, _⟩ := he
  refine ⟨y, m, d, hdate, hy1, hy2, hm, hd1, hd2, ?_⟩
  rw [hdr, hdate, parseDateD_roundtrip y m d (by omega) hm hd1 hd2]

theorem hdr_facts {e : MoodEntry} (he : entryExportable e) :
    isNewEntry (hdr e) = true ∧ jsTrim (hdr e) = hdr e ∧ '\n' ∉ hdr e ∧
      hdr e ≠ [] ∧ ∀ a, (hdr e).head? = some a → isWs a = false := by
  obtain ⟨y, m, d, hdate, hy1, hy2, hm, hd1, hd2, hh⟩ := entry_hdr_facts he
  rw [hh]
  refine ⟨isNewEntry_fdd y m d e.mood hy1 hy2 hm,
    header_trim y m d e.mood hy1 hy2 hm,
    header_nl_free y m d e.mood hy1 hy2 hm, by simp, ?_⟩
  intro a ha
  injection ha with ha1
  rw [← ha1]
  exact emoji_not_ws e.mood

theorem importGroups_good : ∀ (L : List MoodEntry),
    (∀ e ∈ L, entryExportable e) → ∀ g ∈ importGroupsOf L, goodGroup g := by
  intro L
  induction L with
  | nil => intro _ g hg; simp [importGroupsOf] at hg
  | cons e L2 ih =>
      intro hL g hg
      obtain ⟨hnew, htrim, _, _, _⟩ := hdr_facts (hL e (by simp))
      obtain ⟨_, hct, hlines⟩ := hL e (by simp)
      cases L2 with
      | nil =>
          rw [importGroupsOf, List.mem_singleton] at hg
          subst hg
          refine ⟨hnew, htrim, ?_⟩
          intro l hl
          by_cases hc : cleanupTags e.diary = []
          · rw [show (lastGroup e).2 = (if cleanupTags e.diary = [] then []
              else splitOnChar '\n' (cleanupTags e.diary)) from rfl,
              if_pos hc] at hl
            exact absurd hl (by simp)
          · rw [show (lastGroup e).2 = (if cleanupTags e.diary = [] then []
              else splitOnChar '\n' (cleanupTags e.diary)) from rfl,
              if_neg hc] at hl
            exact hlines l hl
      | cons e2 rest =>
          rw [importGroupsOf, List.mem_cons] at hg
          rcases hg with rfl | hg2
          · refine ⟨hnew, htrim, ?_⟩
            intro l hl
            rcases List.mem_append.mp hl with hl1 | hl2
            · exact hlines l hl1
            · rw [List.mem_singleton] at hl2
              subst hl2
              exact ⟨rfl, by decide⟩
          · exact ih (fun x hx => hL x (by simp [hx])) g hg2

theorem importGroups_nl_free : ∀ (L : List MoodEntry),
    (∀ e ∈ L, entryExportable e) →
    ∀ p ∈ ((importGroupsOf L).map (fun g => g.1 :: g.2)).flatten, '\n' ∉ p := by
  intro L
  induction L with
  | nil => intro _ p hp; simp [importGroupsOf] at hp
  | cons e L2 ih =>
      intro hL p hp
      obtain ⟨_, _, hnl, _, _⟩ := hdr_facts (hL e (by simp))
      cases L2 with
      | nil =>
          rw [importGroupsOf] at hp
          simp only [List.map_cons, List.map_nil, List.flatten_cons,
            List.flatten_nil, List.append_nil] at hp
          rcases List.mem_cons.mp hp with rfl | hp2
          · exact hnl
          · by_cases hc : cleanupTags e.diary = []
            · rw [show (lastGroup e).2 = (if cleanupTags e.diary = [] then []
                else splitOnChar '\n' (cleanupTags e.diary)) from rfl,
                if_pos hc] at hp2
              exact absurd hp2 (by simp)
            · rw [show (lastGroup e).2 = (if cleanupTags e.diary = [] then []
                else splitOnChar '\n' (cleanupTags e.diary)) from rfl,
                if_neg hc] at hp2
              exact splitOnChar_sep_free '\n' (cleanupTags e.diary) p hp2
      | cons e2 rest =>
          rw [importGroupsOf] at hp
          rw [List.map_cons, List.flatten_cons] at hp
          rcases List.mem_append.mp hp with hp1 | hp2
          · rcases List.mem_cons.mp hp1 with rfl | hp3
            · exact hnl
            · rcases List.mem_append.mp hp3 with hp4 | hp5
              · exact splitOnChar_sep_free '\n' (cleanupTags e.diary) p hp4
              · rw [List.mem_singleton] at hp5
                subst hp5
                simp
          · exact ih (fun x hx => hL x (by simp [hx])) p hp2

theorem hdr_ne_nil (e : MoodEntry) : hdr e ≠ [] := by
  rw [hdr]
  simp

theorem ltrimF_hdr (e : MoodEntry) : ltrimF (hdr e) = hdr e := by
  rw [hdr]
  exact ltrimF_cons_neg _ (emoji_not_ws e.mood)

theorem rtrimF_hdr {e : MoodEntry} (htrim : jsTrim (hdr e) = hdr e) :
    rtrimF (hdr e) = hdr e := by
  have h := htrim
  rw [jsTrim_eq_rtrim_ltrim, ltrimF_hdr] at h
  exact h

theorem nlFlat_split (c : Str) : nlFlat (splitOnChar '\n' c) = '\n' :: c := by
  have h1 := joinWith_hdr_split [] c
  rw [joinWith_nlFlat] at h1
  simpa using h1

theorem export_rtrim : ∀ (L : List MoodEntry), L ≠ [] →
    (∀ e ∈ L, entryExportable e) →
    rtrimF (joinWith ['\n', '\n'] (L.map exportBlock)) =
      joinWith ['\n'] (((importGroupsOf L).map (fun g => g.1 :: g.2)).flatten) := by
  intro L
  induction L with
  | nil => intro h; exact absurd rfl h
  | cons e L2 ih =>
      intro _ hL
      obtain ⟨hnew, htrim, hnl, hne, hhw⟩ := hdr_facts (hL e (by simp))
      obtain ⟨_, hct, hlines⟩ := hL e (by simp)
      cases L2 with
      | nil =>
          rw [importGroupsOf]
          rw [show ([e].map exportBlock) = [exportBlock e] from rfl,
            show joinWith ['\n', '\n'] [exportBlock e] = exportBlock e from rfl,
            exportBlock_eq]
          simp only [List.map_cons, List.map_nil, List.flatten_cons,
            List.flatten_nil, List.append_nil]
          by_cases hc : cleanupTags e.diary = []
          · rw [show (lastGroup e).1 = hdr e from rfl,
              show (lastGroup e).2 = (if cleanupTags e.diary = [] then []
                else splitOnChar '\n' (cleanupTags e.diary)) from rfl,
              if_pos hc, hc,
              show hdr e ++ '\n' :: ([] : Str) = hdr e ++ ['\n'] from rfl,
              rtrimF_snoc_ws _ (by decide), rtrimF_hdr htrim]
            rfl
          · rw [show (lastGroup e).1 = hdr e from rfl,
              show (lastGroup e).2 = (if cleanupTags e.diary = [] then []
                else splitOnChar '\n' (cleanupTags e.diary)) from rfl,
              if_neg hc, joinWith_hdr_split]
            apply rtrimF_eq_self
            intro a ha
            rw [List.getLast?_append_of_ne_nil _ (by simp)] at ha
            cases hcc : cleanupTags e.diary with
            | nil => exact absurd hcc hc
            | cons c0 cr =>
                rw [hcc, List.getLast?_cons_cons] at ha
                rw [hcc] at hct
                exact jsTrim_last_not_ws hct a ha
      | cons e2 rest =>
          have ihr := ih (by simp) (fun x hx => hL x (by simp [hx]))
          have hBne : rtrimF (joinWith ['\n', '\n']
              ((e2 :: rest).map exportBlock)) ≠ [] := by
            rw [ihr]
            obtain ⟨ds, gr, hig⟩ := importGroupsOf_cons e2 rest
            rw [hig, List.map_cons, List.flatten_cons, List.cons_append]
            exact joinWith_cons_ne _ _ _ (hdr_ne_nil e2)
          rw [show ((e :: e2 :: rest).map exportBlock) =
              exportBlock e :: (e2 :: rest).map exportBlock from rfl,
            show joinWith ['\n', '\n']
                (exportBlock e :: (e2 :: rest).map exportBlock) =
              exportBlock e ++ ['\n', '\n'] ++
                joinWith ['\n', '\n'] ((e2 :: rest).map exportBlock) from by
              rw [List.map_cons, joinWith_cons_cons],
            rtrimF_append_of_ne _ _ hBne, ihr, importGroupsOf,
            List.map_cons, List.flatten_cons]
          have hflne : ((importGroupsOf (e2 :: rest)).map
              (fun g => g.1 :: g.2)).flatten ≠ [] := by
            obtain ⟨ds, gr, hig⟩ := importGroupsOf_cons e2 rest
            rw [hig, List.map_cons, List.flatten_cons, List.cons_append]
            simp
          rw [joinWith_append ['\n'] _ _ (by simp) hflne, joinWith_nlFlat,
            nlFlat_snoc, nlFlat_split, exportBlock_eq]
          simp [List.append_assoc]

theorem export_trim (L : List MoodEntry) (hne : L ≠ [])
    (hL : ∀ e ∈ L, entryExportable e) :
    jsTrim (joinWith ['\n', '\n'] (L.map exportBlock)) =
      joinWith ['\n'] (((importGroupsOf L).map (fun g => g.1 :: g.2)).flatten) := by
  cases L with
  | nil => exact absurd rfl hne
  | cons e L2 =>
      rw [jsTrim_eq_rtrim_ltrim,
        show ((e :: L2).map exportBlock) = exportBlock e :: L2.map exportBlock
          from rfl]
      have hhead : ∃ r, joinWith ['\n', '\n']
          (exportBlock e :: L2.map exportBlock) =
          MOOD_EMOJIS e.mood :: r := by
        cases L2 with
        | nil => exact ⟨_, rfl⟩
        | cons e2 r2 =>
            rw [List.map_cons, joinWith_cons_cons, exportBlock_eq, hdr]
            exact ⟨_, rfl⟩
      obtain ⟨r, hr⟩ := hhead
      rw [hr, ltrimF_cons_neg _ (emoji_not_ws e.mood), ← hr]
      exact export_rtrim (e :: L2) (by simp) hL

theorem parse_groups : ∀ (L : List MoodEntry), (∀ e ∈ L, entryExportable e) →
    ((importGroupsOf L).map (fun g => jsTrim (accOf g))).filterMap parseBlock =
      L.map (fun e => ⟨e.date, e.mood, cleanupTags e.diary⟩) := by
  intro L
  induction L with
  | nil => intro _; rfl
  | cons e L2 ih =>
      intro hL
      obtain ⟨y, m, d, hdate, hy1, hy2, hm, hd1, hd2, hh⟩ :=
        entry_hdr_facts (hL e (by simp))
      obtain ⟨hnew, htrim, hnl, hneh, hhw⟩ := hdr_facts (hL e (by simp))
      obtain ⟨_, hct, hlines⟩ := hL e (by simp)
      have hparse : parseBlock (if cleanupTags e.diary = [] then hdr e
          else hdr e ++ '\n' :: cleanupTags e.diary) =
          some ⟨e.date, e.mood, cleanupTags e.diary⟩ := by
        rw [hh, hdate]
        exact parse_entry_block y m d e.mood _ hy1 hy2 hm hd1 hd2 hct
      cases L2 with
      | nil =>
          have hblock : jsTrim (accOf (lastGroup e)) =
              (if cleanupTags e.diary = [] then hdr e
                else hdr e ++ '\n' :: cleanupTags e.diary) := by
            rw [show accOf (lastGroup e) = hdr e ++
              nlFlat (if cleanupTags e.diary = [] then []
                else splitOnChar '\n' (cleanupTags e.diary)) from rfl]
            exact jsTrim_last_block _ _ htrim hneh hhw hct
          rw [importGroupsOf]
          simp only [List.map_cons, List.map_nil]
          rw [hblock, List.filterMap_cons_some hparse]
          rfl
      | cons e2 rest =>
          have hblock2 : jsTrim (accOf (hdr e,
              splitOnChar '\n' (cleanupTags e.diary) ++ [[]])) =
              (if cleanupTags e.diary = [] then hdr e
                else hdr e ++ '\n' :: cleanupTags e.diary) := by
            rw [show accOf (hdr e, splitOnChar '\n' (cleanupTags e.diary) ++ [[]]) =
              hdr e ++ nlFlat (splitOnChar '\n' (cleanupTags e.diary) ++ [[]])
              from rfl]
            exact jsTrim_mid_block _ _ htrim hneh hhw hct
          rw [importGroupsOf]
          simp only [List.map_cons]
          rw [hblock2, List.filterMap_cons_some hparse,
            ih (fun x hx => hL x (by simp [hx]))]
          simp

/-- C1, counterexample: the round trip does not return `cleanupTags` of
the original diary when the diary carries leading whitespace — the
importer trims every diary line, while `cleanupTags` preserves the
spaces.  The single valid entry with diary " hi" exports and re-imports
with diary "hi", yet `cleanupTags " hi" = " hi"`. -/
theorem c1_counterexample :
    entryValid ⟨("2024-01-05").data, MoodColor.red, (" hi").data⟩ = true ∧
    cleanupTags ((" hi").data) = (" hi").data ∧
    importData (exportData [⟨("2024-01-05").data, MoodColor.red, (" hi").data⟩]) =
      Except.ok [⟨("2024-01-05").data, MoodColor.red, ("hi").data⟩] := by
  refine ⟨by decide, by decide, ?_⟩
  decide

/-- C1 (amended): for a nonempty collection of valid entries whose dates
are canonical `YYYY-MM-DD` strings (the data model invariant) and whose
tag-normalized diaries are whitespace-stable — the normalized diary is
trimmed as a whole, each of its lines is trimmed, and no line itself
matches the header pattern — `importData (exportData E)` succeeds and
returns exactly the entries of `E` in the export's descending date
order, each with the same date and mood and with diary
`cleanupTags e.diary`.  (The counterexample shows the whitespace
conditions are necessary: import trims diary lines.) -/
theorem c1_roundtrip (E : List MoodEntry) (hne : E ≠ [])
    (hval : ∀ e ∈ E, entryValid e = true)
    (hexp : ∀ e ∈ E, entryExportable e) :
    importData (exportData E) =
      Except.ok ((sortEntriesByDate E false).map
        (fun e => ⟨e.date, e.mood, cleanupTags e.diary⟩)) := by
  have hperm := sortEntriesByDate_perm E false
  have hLmem : ∀ e ∈ sortEntriesByDate E false, entryExportable e :=
    fun e he => hexp e (hperm.mem_iff.mp he)
  have hLne : sortEntriesByDate E false ≠ [] := by
    intro h
    have hlen := hperm.length_eq
    rw [h] at hlen
    exact hne (List.length_eq_zero.mp hlen.symm)
  have hfilter : getValidEntries E = E := by
    rw [getValidEntries, List.filter_eq_self.mpr hval]
  have hexport : exportData E =
      joinWith ['\n', '\n'] ((sortEntriesByDate E false).map exportBlock) := by
    rw [exportData, hfilter, if_neg hne]
  have htrimc := export_trim (sortEntriesByDate E false) hLne hLmem
  cases hL0 : sortEntriesByDate E false with
  | nil => exact absurd hL0 hLne
  | cons e0 L2 =>
      rw [hL0] at htrimc hLmem
      obtain ⟨ds0, gr0, hig⟩ := importGroupsOf_cons e0 L2
      have hflne : (((importGroupsOf (e0 :: L2)).map
          (fun g => g.1 :: g.2)).flatten) ≠ [] := by
        rw [hig, List.map_cons, List.flatten_cons, List.cons_append]
        simp
      have hjne : joinWith ['\n'] (((importGroupsOf (e0 :: L2)).map
          (fun g => g.1 :: g.2)).flatten) ≠ [] := by
        rw [hig, List.map_cons, List.flatten_cons, List.cons_append]
        exact joinWith_cons_ne _ _ _ (hdr_ne_nil e0)
      have hsplit : splitOnChar '\n' (jsTrim (exportData E)) =
          ((importGroupsOf (e0 :: L2)).map (fun g => g.1 :: g.2)).flatten := by
        rw [hexport, hL0, htrimc]
        exact splitOnChar_joinWith '\n' _ hflne
          (importGroups_nl_free (e0 :: L2) hLmem)
      have hgood := importGroups_good (e0 :: L2) hLmem
      rw [hig] at hsplit hgood
      have hblocks := importBlocks_groups (exportData E) (hdr e0, ds0) gr0
        hsplit hgood
      have hparsed : (importBlocks (exportData E)).filterMap parseBlock =
          (e0 :: L2).map (fun e => ⟨e.date, e.mood, cleanupTags e.diary⟩) := by
        rw [hblocks, ← hig]
        exact parse_groups (e0 :: L2) hLmem
      have htrimne : jsTrim (exportData E) ≠ [] := by
        rw [hexport, hL0, htrimc, hig]
        rw [hig] at hjne
        exact hjne
      rw [importData, if_neg htrimne, hparsed, if_neg (by simp)]

/-- C1, witness: the amended round-trip theorem applied to a concrete
two-entry collection with tagged diaries. -/
theorem c1_witness :
    importData (exportData
      [⟨("2024-01-05").data, MoodColor.red, ("<b>hi</b>").data⟩,
       ⟨("2024-03-07").data, MoodColor.blue, ("day\nnight").data⟩]) =
      Except.ok ((sortEntriesByDate
        [⟨("2024-01-05").data, MoodColor.red, ("<b>hi</b>").data⟩,
         ⟨("2024-03-07").data, MoodColor.blue, ("day\nnight").data⟩] false).map
        (fun e => ⟨e.date, e.mood, cleanupTags e.diary⟩)) :=
  c1_roundtrip
    [⟨("2024-01-05").data, MoodColor.red, ("<b>hi</b>").data⟩,
     ⟨("2024-03-07").data, MoodColor.blue, ("day\nnight").data⟩]
    (by decide) (by decide)
    (fun e he => by
      rw [List.mem_cons, List.mem_singleton] at he
      rcases he with rfl | rfl
      · exact ⟨⟨2024, 0, 5, by decide, by decide, by decide, by decide,
          by decide, by decide⟩, by decide, by decide⟩
      · exact ⟨⟨2024, 2, 7, by decide, by decide, by decide, by decide,
          by decide, by decide⟩, by decide, by decide⟩)

end MoodJournal
